import Mathlib

/-! The package go-cleaner: the Cleaner of `cleaner.go`.

A shallow embedding of the package `cleaner` (`Cleaner`, `Add`, `Ok`, `New`) and the
properties of its release order, its two release paths and its behaviour when a
registered closure panics.

Modelling decisions, all taken from the source:

* A registered value of type `func()` is opaque to the cleaner.  In the first model
  (`Closure`) it is a function that transforms the environment `W` outside the cleaner
  and either returns normally or panics with a value of type `E`.  The effects a closure
  had before it panicked stay.  Such a closure does not call into the package.
* In the model of closures that do call into the package (`Act`, `callAct`), a closure
  may call `Add` or `Ok` on a cleaner or be the cleanup function of one.  Idempotence
  of the cleanup function, independence of two cleaners and the state after the drain
  are settled there.
* A `*Cleaner` is an address in a heap of `Cleaner` structs.  `New` allocates.
* The functions the package itself returns (the result of `Ok`, the cleanup function of
  `New`) are transformers of the whole program state that may end in a fault.
* The program state carries a call trace, extended at the one place where the package
  calls a registered closure (`closures[i]()` in `Ok`).  The trace is the record of
  which closures were executed and in which order.
* A nil slice is the empty list; `append` on it yields a one-element slice.
* A second, finer model (`Store`) keeps slice headers and backing arrays apart, with
  `append` writing in place when there is room.  It is used to show that the slice
  captured by `Ok` shares no array cell with what the cleaner appends to later.
* Programs are scripts of calls (`Call`, `exec`) on one cleaner, holding the functions
  that `Ok` returned to them.
-/

namespace GoCleaner

/-- A Go value of type `func()` registered with a cleaner that does not call into the
package: run on the environment, it gives the environment afterwards and the panic
value, if it panicked.  It cannot reach a cleaner; the closures that can (that call
`Add`, `Ok` or a cleanup function) are the subject of `Act` further down. -/
abbrev Closure (W E : Type) := W → W × Option E

/-- The struct `Cleaner` with its single field `closures []func()`. -/
structure Cleaner (W E : Type) where
  closures : List (Closure W E)

/-- The ways a call into the package can end abnormally: a registered closure panicked
with a value, or the indexing `closures[i]` was out of range. -/
inductive Fault (E : Type) where
  | actionPanic (e : E)
  | indexOutOfRange
  deriving DecidableEq, Repr

/-- The program state: the heap of cleaners (addressed by `*Cleaner` values), the next
free address, the environment the closures act on, and the trace of closure calls. -/
structure State (W E : Type) where
  heap : Nat → Cleaner W E
  next : Nat
  world : W
  trace : List (Closure W E)

/-- A `func()` returned by the package: a transformer of the program state that
returns normally (`none`) or ends in a fault. -/
abbrev Func (W E : Type) := State W E → State W E × Option (Fault E)

variable {W E : Type}

/-- The method `Add`: `d.closures = append(d.closures, closure)`. -/
def Cleaner.Add (d : Nat) (closure : Closure W E) (s : State W E) : State W E :=
  { s with heap := Function.update s.heap d ⟨(s.heap d).closures ++ [closure]⟩ }

/-- The loop `for i := len(closures) - 1; i >= 0; i-- { closures[i]() }` of the function
returned by `Ok`.  The counter argument is `i + 1`: at `0` the condition `i >= 0` is
false and the loop ends; at `k + 1` the body indexes `closures[k]` (a fault when out of
range), calls it, and, unless the call panicked, goes on with `i = k - 1`. -/
def okLoop (closures : List (Closure W E)) : Nat → Func W E
  | 0, s => (s, none)
  | k + 1, s =>
    match closures[k]? with
    | none => (s, some Fault.indexOutOfRange)
    | some f =>
      let r := f s.world
      let s1 : State W E := { s with world := r.1, trace := s.trace ++ [f] }
      match r.2 with
      | some e => (s1, some (Fault.actionPanic e))
      | none => okLoop closures k s1

/-- The function literal returned by `Ok`, closed over the local `closures`: the loop
started at `i = len(closures) - 1`. -/
def released (closures : List (Closure W E)) : Func W E :=
  okLoop closures closures.length

/-- The method `Ok`: `closures := d.closures; d.closures = nil; return func() {...}`. -/
def Cleaner.Ok (d : Nat) (s : State W E) : State W E × Func W E :=
  let closures := (s.heap d).closures
  ({ s with heap := Function.update s.heap d ⟨[]⟩ }, released closures)

/-- The cleanup function literal of `New`, closed over `d`: `func() { d.Ok()() }`. -/
def cleanup (d : Nat) : Func W E := fun s =>
  let r := Cleaner.Ok d s
  r.2 r.1

/-- The function `New`: `d := &Cleaner{nil}; return d, func() { d.Ok()() }`.  The new
cleaner is placed at the next free address. -/
def New (s : State W E) : State W E × Nat × Func W E :=
  let d := s.next
  ({ s with heap := Function.update s.heap d ⟨[]⟩, next := s.next + 1 }, d, cleanup d)

/-- The calls `d.Add(a1); ...; d.Add(aN)`, in this order. -/
def addAll (d : Nat) (actions : List (Closure W E)) (s : State W E) : State W E :=
  actions.foldl (fun t a => Cleaner.Add d a t) s

/-- A closure that returns normally from every environment. -/
def Returns (a : Closure W E) : Prop := ∀ w, (a w).2 = none

/-- A closure that panics from every environment. -/
def Panics (a : Closure W E) : Prop := ∀ w, (a w).2 ≠ none

/-- The environment after calling the closures of a list one after the other, from the
head on, in the case that all of them return. -/
def effects (cs : List (Closure W E)) (w : W) : W :=
  cs.foldl (fun v a => (a v).1) w

/-- Calling the closures of a list one after the other, from the head on, stopping at the
first panic: the reference semantics the loop of `Ok` is compared with. -/
def callEach : List (Closure W E) → Func W E
  | [], s => (s, none)
  | f :: fs, s =>
    let r := f s.world
    let s1 : State W E := { s with world := r.1, trace := s.trace ++ [f] }
    match r.2 with
    | some e => (s1, some (Fault.actionPanic e))
    | none => callEach fs s1

/-! ## Concrete closures and a concrete start state, for the test and the examples -/

/-- The closure `func() { fmt.Printf(msg) }`: the environment is the text written to the
standard output. -/
def printf (msg : String) : Closure String Unit := fun out => (out ++ msg, none)

/-- A closure that appends a line to a log and returns. -/
def logLine (msg : String) : Closure (List String) String := fun log => (log ++ [msg], none)

/-- A closure that appends a line to a log and then panics with that line. -/
def logPanic (msg : String) : Closure (List String) String :=
  fun log => (log ++ [msg], some msg)

/-- The start state of a program: no cleaner allocated, nothing called yet. -/
def start (w : W) : State W E :=
  { heap := fun _ => ⟨[]⟩, next := 0, world := w, trace := [] }

/-- The start state of a program that keeps a log of lines. -/
def logStart : State (List String) String := start []

/-- The start state of a program that has written nothing to the standard output. -/
def stdoutStart : State String Unit := start ""

/-- The program `d, _ := New(); d.Add(a1); ...; d.Add(aN); f := d.Ok(); f()`. -/
def handoffRun (actions : List (Closure W E)) (s : State W E) :
    State W E × Option (Fault E) :=
  let n := New s
  let r := Cleaner.Ok n.2.1 (addAll n.2.1 actions n.1)
  r.2 r.1

/-- The program `d, cleanup := New(); d.Add(a1); ...; d.Add(aN); cleanup()`, in which
`Ok` is never called by the caller. -/
def guardRun (actions : List (Closure W E)) (s : State W E) :
    State W E × Option (Fault E) :=
  let n := New s
  n.2.2 (addAll n.2.1 actions n.1)

/-- The program `d, cleanup := New(); d.Add(a1); ...; d.Add(aN); f := d.Ok()`: the state
after the call of `Ok` and the function `f` it returned. -/
def afterOk (actions : List (Closure W E)) (s : State W E) : State W E × Func W E :=
  Cleaner.Ok (New s).2.1 (addAll (New s).2.1 actions (New s).1)

/-! ## Programs that call into one cleaner -/

/-- A call a program makes on one cleaner `d` and on what `d.Ok()` returned to it:
`d.Add(a)`, `f := d.Ok()`, `cleanup()`, and the invocation `f()` of the function
that the `i`-th call of `Ok` returned. -/
inductive Call (W E : Type) where
  | add (a : Closure W E)
  | ok
  | guard
  | invoke (i : Nat)

/-- A function returned by `Ok` and held by the program.  `run` is the function value;
`captured` and `invoked` are bookkeeping: the pending sequence at the call of `Ok`,
and whether the program has invoked the function. -/
structure Handle (W E : Type) where
  run : Func W E
  captured : List (Closure W E)
  invoked : Bool

/-- The state of a program: the package state, the functions `Ok` has returned so far
(in the order of the calls), and the list of all closures passed to `Add` so far. -/
structure Prog (W E : Type) where
  st : State W E
  handles : List (Handle W E)
  added : List (Closure W E)

/-- One call of the program on the cleaner `d`.  A program that is still running after
`cleanup()` or `f()` ended in a panic has recovered from it, so the fault is dropped
here; an invocation of a function that `Ok` has not returned yet is no call at all. -/
def step (d : Nat) (p : Prog W E) : Call W E → Prog W E
  | Call.add a => { p with st := Cleaner.Add d a p.st, added := p.added ++ [a] }
  | Call.ok =>
    { p with st := (Cleaner.Ok d p.st).1,
             handles := p.handles ++
               [⟨(Cleaner.Ok d p.st).2, (p.st.heap d).closures, false⟩] }
  | Call.guard => { p with st := (cleanup d p.st).1 }
  | Call.invoke i =>
    match p.handles[i]? with
    | none => p
    | some h =>
      { p with st := (h.run p.st).1, handles := p.handles.set i { h with invoked := true } }

/-- The calls of a script, one after the other. -/
def exec (d : Nat) (script : List (Call W E)) (p : Prog W E) : Prog W E :=
  script.foldl (step d) p

/-- The program state right after `d, cleanup := New()`. -/
def fresh (s : State W E) : Prog W E :=
  { st := (New s).1, handles := [], added := [] }

/-- The indices of the invocations `f()` in a script, in order. -/
def invocations : List (Call W E) → List Nat
  | [] => []
  | Call.invoke i :: cs => i :: invocations cs
  | _ :: cs => invocations cs

/-- The closures passed to `Add` in a script, in order. -/
def additions : List (Call W E) → List (Closure W E)
  | [] => []
  | Call.add a :: cs => a :: additions cs
  | _ :: cs => additions cs

/-- The closures captured by the functions that `Ok` returned and that the program has
not invoked. -/
def held : List (Handle W E) → List (Closure W E)
  | [] => []
  | h :: hs => (if h.invoked then [] else h.captured) ++ held hs

/-- The invariant of a program running on the cleaner `d` from a state with the trace
`base`, `done` being the indices invoked so far: the pending closures and the captured
ones return normally, every handle holds the function of its captured sequence and is
marked invoked only if its index was invoked, and the closures called since the start,
the pending ones and those held by handles not invoked are together, as a multiset,
the closures added. -/
def Conserved (d : Nat) (base : List (Closure W E)) (done : List Nat) (p : Prog W E) :
    Prop :=
  (∀ a ∈ (p.st.heap d).closures, Returns a) ∧
  (∀ i h, p.handles[i]? = some h →
    h.run = released h.captured ∧ (∀ a ∈ h.captured, Returns a) ∧
      (h.invoked = true → i ∈ done)) ∧
  ∃ ex, p.st.trace = base ++ ex ∧
    ((ex : Multiset (Closure W E)) + ((p.st.heap d).closures : Multiset (Closure W E)) +
      (held p.handles : Multiset (Closure W E))) = (p.added : Multiset (Closure W E))

/-- A program on a log: add A, add B, take the handoff function, add C, invoke the
handoff function, run the cleanup function. -/
def sampleScript : List (Call (List String) String) :=
  [Call.add (logLine "A"), Call.add (logLine "B"), Call.ok, Call.add (logLine "C"),
    Call.invoke 0, Call.guard]

/-! ## Slices with backing arrays

The definitions above take a value of type `[]func()` as a list.  The ones below keep
the slice header and the backing arrays apart, as the Go runtime does, so that the
sharing of a backing array between the slice captured by `Ok` and the slice the cleaner
has later can be stated. -/

/-- A Go slice header: the address of the backing array, the length and the capacity. -/
structure Slice where
  arr : Nat
  len : Nat
  cap : Nat
  deriving DecidableEq, Repr

/-- The nil slice: length 0, capacity 0. -/
def Slice.nil : Slice := ⟨0, 0, 0⟩

/-- The program state with backing arrays: the cells of every array (a cell never written
holds the nil function), the next free array address, the field `closures` of the
cleaner at every address, the environment and the trace of closure calls. -/
structure Store (W E : Type) where
  cells : Nat → Nat → Option (Closure W E)
  nextArr : Nat
  field : Nat → Slice
  world : W
  trace : List (Closure W E)

/-- The ways a call can end abnormally on a store: as in `Fault`, and the call of a nil
function value. -/
inductive StoreFault (E : Type) where
  | actionPanic (e : E)
  | indexOutOfRange
  | nilCall
  deriving DecidableEq, Repr

/-- The builtin `append(sl, x)` with one element.  With room left (`len < cap`) the
element is written into the backing array of `sl`, at index `len`; otherwise a new
array is allocated, of capacity `len + 1` and whatever the growth policy `extra` of the
runtime adds, the elements are copied and the new one is written behind them. -/
def goAppend (extra : Nat → Nat) (sl : Slice) (x : Closure W E) (m : Store W E) :
    Store W E × Slice :=
  if sl.len < sl.cap then
    let array := Function.update (m.cells sl.arr) sl.len (some x)
    ({ m with cells := Function.update m.cells sl.arr array }, { sl with len := sl.len + 1 })
  else
    let array : Nat → Option (Closure W E) := fun i =>
      if i < sl.len then m.cells sl.arr i else if i = sl.len then some x else none
    ({ m with cells := Function.update m.cells m.nextArr array, nextArr := m.nextArr + 1 },
      ⟨m.nextArr, sl.len + 1, sl.len + 1 + extra sl.len⟩)

/-- The method `Add` on a store: `d.closures = append(d.closures, closure)`. -/
def storeAdd (extra : Nat → Nat) (d : Nat) (closure : Closure W E) (m : Store W E) :
    Store W E :=
  let r := goAppend extra (m.field d) closure m
  let m1 := r.1
  { m1 with field := Function.update m1.field d r.2 }

/-- The loop of the function returned by `Ok`, on a store: `closures[i]` is checked
against the length of the captured slice and read from its backing array at the time of
the call.  The counter argument is `i + 1`, as in `okLoop`. -/
def storeLoop (closures : Slice) : Nat → Store W E → Store W E × Option (StoreFault E)
  | 0, m => (m, none)
  | k + 1, m =>
    if k < closures.len then
      match m.cells closures.arr k with
      | none => (m, some StoreFault.nilCall)
      | some f =>
        let r := f m.world
        let m1 : Store W E := { m with world := r.1, trace := m.trace ++ [f] }
        match r.2 with
        | some e => (m1, some (StoreFault.actionPanic e))
        | none => storeLoop closures k m1
    else (m, some StoreFault.indexOutOfRange)

/-- The function literal returned by `Ok`, on a store, closed over the slice header. -/
def storeReleased (closures : Slice) : Store W E → Store W E × Option (StoreFault E) :=
  storeLoop closures closures.len

/-- The method `Ok` on a store: `closures := d.closures; d.closures = nil; return ...`. -/
def storeOk (d : Nat) (m : Store W E) :
    Store W E × (Store W E → Store W E × Option (StoreFault E)) :=
  let closures := m.field d
  ({ m with field := Function.update m.field d Slice.nil }, storeReleased closures)

/-- The cleanup function of `New` on a store: `func() { d.Ok()() }`. -/
def storeCleanup (d : Nat) (m : Store W E) : Store W E × Option (StoreFault E) :=
  let r := storeOk d m
  r.2 r.1

/-- A call on the cleaner after a handoff: `d.Add(a)`, `d.Ok()`, `cleanup()`. -/
inductive LaterCall (W E : Type) where
  | add (a : Closure W E)
  | ok
  | guard

/-- One later call on a store (a panic of the cleanup function recovered from). -/
def storeStep (extra : Nat → Nat) (d : Nat) (m : Store W E) : LaterCall W E → Store W E
  | LaterCall.add a => storeAdd extra d a m
  | LaterCall.ok => (storeOk d m).1
  | LaterCall.guard => (storeCleanup d m).1

/-- The later calls of a script on a store, one after the other. -/
def storeExec (extra : Nat → Nat) (d : Nat) (script : List (LaterCall W E))
    (m : Store W E) : Store W E :=
  script.foldl (storeStep extra d) m

/-- The list `v` is what the slice `sl` shows in the store `m`. -/
def IsView (m : Store W E) (sl : Slice) (v : List (Closure W E)) : Prop :=
  v.length = sl.len ∧ ∀ i, i < sl.len → m.cells sl.arr i = v[i]?

/-- A store with no array allocated and every cleaner's field nil. -/
def emptyStore (w : W) : Store W E :=
  { cells := fun _ _ => none, nextArr := 0, field := fun _ => Slice.nil, world := w,
    trace := [] }

/-- The store after `d.Add(A); d.Add(B)` on the cleaner at address 0, with a runtime
that allocates three cells more than needed: B is appended in place. -/
def storeAB : Store (List String) String :=
  storeAdd (fun _ => 3) 0 (logLine "B") (storeAdd (fun _ => 3) 0 (logLine "A") (emptyStore []))

/-! ## Closures that call into the package

A Go closure of type `func()` can do more than change the environment: it can hold a
`*Cleaner` and call `Add` or `Ok` on it, and it can be (or call) the cleanup function of
a cleaner.  `Closure` above is the closure that does none of this.  `Act` below is the
closure that may: its calls into the package act on the cleaners themselves. -/

/-- A registered `func()`, by what it does when called: `prim f` acts on the environment
only and may panic (it is a `Closure`); `add d a` is `func() { d.Add(a) }`; `drop d` is
`func() { d.Ok() }`; `guard d` is the cleanup function `New` returned together with the
cleaner `d`, that is `func() { d.Ok()() }`; `seq a b` is `func() { a(); b() }`. -/
inductive Act (W E : Type) where
  | prim (f : Closure W E)
  | add (d : Nat) (a : Act W E)
  | drop (d : Nat)
  | guard (d : Nat)
  | seq (a b : Act W E)

/-- The program state when closures may call into the package: the field `closures` of
the cleaner at every address, the next free address, the environment, and the trace of
the calls `closures[i]()` made by the release loop. -/
structure ActState (W E : Type) where
  closures : Nat → List (Act W E)
  next : Nat
  world : W
  trace : List (Act W E)

/-- The method `Add`: `d.closures = append(d.closures, closure)`. -/
def actAdd (d : Nat) (closure : Act W E) (s : ActState W E) : ActState W E :=
  { s with closures := Function.update s.closures d (s.closures d ++ [closure]) }

/-- The method `Ok`: `closures := d.closures; d.closures = nil`, returning the state and
the captured `closures`, over which the returned function is closed. -/
def actOk (d : Nat) (s : ActState W E) : ActState W E × List (Act W E) :=
  ({ s with closures := Function.update s.closures d [] }, s.closures d)

/-- The loop `for i := len(closures) - 1; i >= 0; i-- { closures[i]() }`, as `okLoop`,
with the meaning of a call given by `call`: a call that does not come back within the
call depth allowed (`none`) ends the loop without a result, a call that panics ends it
with the panic. -/
def actLoop (call : Act W E → ActState W E → Option (ActState W E × Option (Fault E)))
    (closures : List (Act W E)) :
    Nat → ActState W E → Option (ActState W E × Option (Fault E))
  | 0, s => some (s, none)
  | k + 1, s =>
    match closures[k]? with
    | none => some (s, some Fault.indexOutOfRange)
    | some f =>
      match call f { s with trace := s.trace ++ [f] } with
      | none => none
      | some (s1, some e) => some (s1, some e)
      | some (s1, none) => actLoop call closures k s1

/-- The call `a()` of a closure, for calls nested at most `depth` deep (`none` beyond
that).  The cleanup function takes the cleaner's closures, sets the field to nil and
runs the release loop over what it took, each call one level deeper. -/
def callAct : Nat → Act W E → ActState W E → Option (ActState W E × Option (Fault E))
  | 0, _, _ => none
  | _ + 1, Act.prim f, s =>
    some ({ s with world := (f s.world).1 }, (f s.world).2.map Fault.actionPanic)
  | _ + 1, Act.add d a, s => some (actAdd d a s, none)
  | _ + 1, Act.drop d, s => some ((actOk d s).1, none)
  | n + 1, Act.guard d, s =>
    actLoop (callAct n) (actOk d s).2 (actOk d s).2.length (actOk d s).1
  | n + 1, Act.seq a b, s =>
    match callAct n a s with
    | none => none
    | some (s1, some e) => some (s1, some e)
    | some (s1, none) => callAct n b s1

/-- The function literal returned by `Ok`, closed over `closures`, with the calls of the
closures nested at most `depth` deep. -/
def actReleased (depth : Nat) (closures : List (Act W E)) :
    ActState W E → Option (ActState W E × Option (Fault E)) :=
  actLoop (callAct depth) closures closures.length

/-- The cleanup function literal of `New`, closed over `d`: `func() { d.Ok()() }`. -/
def actCleanup (depth : Nat) (d : Nat) :
    ActState W E → Option (ActState W E × Option (Fault E)) := fun s =>
  actReleased depth (actOk d s).2 (actOk d s).1

/-- The function `New`: the new cleaner at the next free address, with `closures` nil,
and its cleanup function, as a closure value. -/
def actNew (s : ActState W E) : ActState W E × Nat × Act W E :=
  ({ s with closures := Function.update s.closures s.next [], next := s.next + 1 },
    s.next, Act.guard s.next)

/-- A closure that does not call into the package. -/
def Act.IsPrim : Act W E → Prop
  | Act.prim _ => True
  | _ => False

/-- A closure that does not call into the package and returns normally. -/
def Act.ReturnsPrim : Act W E → Prop
  | Act.prim f => Returns f
  | _ => False

/-- The start state of a program that keeps a log: no cleaner allocated. -/
def actStart : ActState (List String) String :=
  { closures := fun _ => [], next := 0, world := [], trace := [] }

/-- The state after `d, cleanup := New(); d.Add(A); d.Add(func() { B; d.Add(late) })`,
where A, B and late log their names. -/
def lateAdder : ActState (List String) String :=
  actAdd 0 (Act.seq (Act.prim (logLine "B")) (Act.add 0 (Act.prim (logLine "late"))))
    (actAdd 0 (Act.prim (logLine "A")) (actNew actStart).1)

/-- The state after `d, cleanup := New(); d.Add(A); d.Add(func() { d.Add(A); B })`, where
A logs its name and B logs its name and panics. -/
def readder : ActState (List String) String :=
  actAdd 0 (Act.seq (Act.add 0 (Act.prim (logLine "A"))) (Act.prim (logPanic "B")))
    (actAdd 0 (Act.prim (logLine "A")) (actNew actStart).1)

/-- The state after `d0, cleanup0 := New(); d1, cleanup1 := New(); d0.Add(A);
d0.Add(cleanup1); d1.Add(B)`, where A and B log their names. -/
def crossed : ActState (List String) String :=
  actAdd 1 (Act.prim (logLine "B"))
    (actAdd 0 (actNew (actNew actStart).1).2.2
      (actAdd 0 (Act.prim (logLine "A")) (actNew (actNew actStart).1).1))

/-- The state after `d0, _ := New(); d1, _ := New(); d0.Add(A); d1.Add(B)`. -/
def twoPlain : ActState (List String) String :=
  actAdd 1 (Act.prim (logLine "B"))
    (actAdd 0 (Act.prim (logLine "A")) (actNew (actNew actStart).1).1)

/-- The state after `d, cleanup := New(); d.Add(A); d.Add(B); d.Add(C)`, where A and C
log their names and B logs its name and panics. -/
def panicMiddle : ActState (List String) String :=
  actAdd 0 (Act.prim (logLine "C"))
    (actAdd 0 (Act.prim (logPanic "B"))
      (actAdd 0 (Act.prim (logLine "A")) (actNew actStart).1))

/-- The state after `d, cleanup := New(); d.Add(A); d.Add(func() { d.Add(late) })`. -/
def adderLast : ActState (List String) String :=
  actAdd 0 (Act.add 0 (Act.prim (logLine "late")))
    (actAdd 0 (Act.prim (logLine "A")) (actNew actStart).1)

/-! ## The loop of `Ok` against the reference semantics -/

theorem callEach_nil (s : State W E) : callEach [] s = (s, none) := rfl

theorem okLoop_eq_callEach (closures : List (Closure W E)) :
    ∀ (k : Nat) (s : State W E), k ≤ closures.length →
      okLoop closures k s = callEach (closures.take k).reverse s := by
  intro k
  induction k with
  | zero => intro s _; simp [okLoop, callEach]
  | succ k ih =>
    intro s hk
    have hlt : k < closures.length := hk
    have hget : closures[k]? = some closures[k] := List.getElem?_eq_getElem hlt
    have htake : (closures.take (k + 1)).reverse = closures[k] :: (closures.take k).reverse := by
      rw [List.take_succ, hget]; simp
    rw [htake]
    simp only [okLoop, hget, callEach]
    cases hr : (closures[k] s.world).2 with
    | none => simp only []; exact ih _ (Nat.le_of_lt hlt)
    | some e => rfl

theorem released_eq_callEach (closures : List (Closure W E)) (s : State W E) :
    released closures s = callEach closures.reverse s := by
  unfold released
  rw [okLoop_eq_callEach closures closures.length s (Nat.le_refl _), List.take_length]

theorem callEach_returns :
    ∀ (cs : List (Closure W E)) (s : State W E), (∀ a ∈ cs, Returns a) →
      callEach cs s = ({ s with world := effects cs s.world, trace := s.trace ++ cs }, none) := by
  intro cs
  induction cs with
  | nil => intro s _; simp [callEach, effects]
  | cons f fs ih =>
    intro s h
    have hf : (f s.world).2 = none := h f (List.mem_cons_self _ _) s.world
    have hfs : ∀ a ∈ fs, Returns a := fun a ha => h a (List.mem_cons_of_mem _ ha)
    simp only [callEach, hf]
    rw [ih _ hfs]
    simp [effects]

theorem callEach_stops :
    ∀ (pre : List (Closure W E)) (a : Closure W E) (rest : List (Closure W E))
      (s : State W E) (e : E), (∀ b ∈ pre, Returns b) →
      (a (effects pre s.world)).2 = some e →
      callEach (pre ++ a :: rest) s =
        ({ s with world := (a (effects pre s.world)).1, trace := s.trace ++ (pre ++ [a]) },
          some (Fault.actionPanic e)) := by
  intro pre
  induction pre with
  | nil =>
    intro a rest s e _ ha
    simp only [effects, List.foldl_nil] at ha
    simp [callEach, ha, effects]
  | cons f fs ih =>
    intro a rest s e h ha
    have hf : (f s.world).2 = none := h f (List.mem_cons_self _ _) s.world
    have hfs : ∀ b ∈ fs, Returns b := fun b hb => h b (List.mem_cons_of_mem _ hb)
    have hstep : callEach ((f :: fs) ++ a :: rest) s =
        callEach (fs ++ a :: rest)
          { s with world := (f s.world).1, trace := s.trace ++ [f] } := by
      simp only [List.cons_append, callEach, hf]
      rfl
    have ha2 : (a (effects fs (f s.world).1)).2 = some e := by
      simpa [effects] using ha
    rw [hstep, ih a rest _ e hfs ha2]
    simp [effects]

theorem callEach_fault :
    ∀ (cs : List (Closure W E)) (s : State W E),
      (callEach cs s).2 ≠ some Fault.indexOutOfRange := by
  intro cs
  induction cs with
  | nil => intro s; simp [callEach]
  | cons f fs ih =>
    intro s
    simp only [callEach]
    cases hr : (f s.world).2 with
    | none => exact ih _
    | some e => simp

/-! ## The heap under `Add` -/

theorem addAll_eq (d : Nat) :
    ∀ (actions : List (Closure W E)) (s : State W E),
      addAll d actions s =
        { s with heap := Function.update s.heap d ⟨(s.heap d).closures ++ actions⟩ } := by
  intro actions
  induction actions with
  | nil =>
    intro s
    simp [addAll]
  | cons a as ih =>
    intro s
    have h := ih (Cleaner.Add d a s)
    simp only [addAll, List.foldl_cons] at h ⊢
    rw [h]
    simp [Cleaner.Add]

/-! ## Frame of the release loop: it reads and writes the environment and the trace only -/

theorem callEach_frame :
    ∀ (cs : List (Closure W E)) (s : State W E) (h : Nat → Cleaner W E) (n : Nat),
      callEach cs { s with heap := h, next := n } =
        ({ (callEach cs s).1 with heap := h, next := n }, (callEach cs s).2) := by
  intro cs
  induction cs with
  | nil => intro s h n; rfl
  | cons f fs ih =>
    intro s h n
    cases hr : (f s.world).2 with
    | none =>
      simp only [callEach, hr]
      exact ih { s with world := (f s.world).1, trace := s.trace ++ [f] } h n
    | some e => simp only [callEach, hr]

theorem callEach_heap (cs : List (Closure W E)) (s : State W E) :
    (callEach cs s).1.heap = s.heap ∧ (callEach cs s).1.next = s.next := by
  have h := callEach_frame cs s s.heap s.next
  have h1 := congrArg (fun r => r.1.heap) h
  have h2 := congrArg (fun r => r.1.next) h
  exact ⟨h1, h2⟩

theorem released_nil (s : State W E) : released ([] : List (Closure W E)) s = (s, none) := rfl

theorem cleanup_eq (d : Nat) (s : State W E) :
    cleanup d s =
      callEach (s.heap d).closures.reverse { s with heap := Function.update s.heap d ⟨[]⟩ } := by
  simp only [cleanup, Cleaner.Ok]
  exact released_eq_callEach _ _

theorem cleanup_of_empty (d : Nat) (s : State W E) (h : (s.heap d).closures = []) :
    cleanup d s = (s, none) := by
  have hd : s.heap d = ⟨[]⟩ := by
    cases hc : s.heap d with
    | mk cl => rw [hc] at h; simp only at h; rw [h]
  rw [cleanup_eq, h]
  simp only [List.reverse_nil, callEach]
  have hu : Function.update s.heap d ⟨[]⟩ = s.heap := by
    rw [← hd]; exact Function.update_eq_self d s.heap
  rw [hu]

theorem logLine_returns (msg : String) : Returns (logLine msg) := fun _ => rfl

theorem printf_returns (msg : String) : Returns (printf msg) := fun _ => rfl

theorem logPanic_panics (msg : String) : Panics (logPanic msg) := fun _ => by
  simp [logPanic]

/-! ## Release order of the two paths -/

theorem handoffRun_eq (actions : List (Closure W E)) (s : State W E) :
    handoffRun actions s =
      callEach actions.reverse
        { s with heap := Function.update s.heap s.next ⟨[]⟩, next := s.next + 1 } := by
  simp only [handoffRun, New, Cleaner.Ok, addAll_eq]
  rw [released_eq_callEach]
  simp

theorem guardRun_eq (actions : List (Closure W E)) (s : State W E) :
    guardRun actions s =
      callEach actions.reverse
        { s with heap := Function.update s.heap s.next ⟨[]⟩, next := s.next + 1 } := by
  simp only [guardRun, New, addAll_eq]
  rw [cleanup_eq]
  simp

theorem handoffRun_returns (actions : List (Closure W E)) (s : State W E)
    (h : ∀ a ∈ actions, Returns a) :
    handoffRun actions s =
      ({ heap := Function.update s.heap s.next ⟨[]⟩, next := s.next + 1,
         world := effects actions.reverse s.world, trace := s.trace ++ actions.reverse },
        none) := by
  have hr : ∀ a ∈ actions.reverse, Returns a := fun a ha => h a (List.mem_reverse.mp ha)
  rw [handoffRun_eq, callEach_returns _ _ hr]

theorem ok_func_returns (d : Nat) (s t : State W E)
    (h : ∀ a ∈ (s.heap d).closures, Returns a) :
    (Cleaner.Ok d s).2 t =
      ({ t with world := effects (s.heap d).closures.reverse t.world,
                trace := t.trace ++ (s.heap d).closures.reverse }, none) := by
  have hr : ∀ a ∈ (s.heap d).closures.reverse, Returns a :=
    fun a ha => h a (List.mem_reverse.mp ha)
  simp only [Cleaner.Ok, released_eq_callEach, callEach_returns _ _ hr]

/-- C1, order property of the handoff: for every list of actions a1..aN (each returning
normally) added in this order with `Add` to a cleaner fresh from `New`, calling `Ok` and
invoking the returned function once makes exactly the calls aN, ..., a1 in this order:
the trace grows by the reversed list and by nothing else, the environment is the one
those calls leave, and the invocation returns normally. -/
theorem handoff_runs_in_reverse (actions : List (Closure W E)) (s : State W E)
    (h : ∀ a ∈ actions, Returns a) :
    (handoffRun actions s).1.trace = s.trace ++ actions.reverse ∧
      (handoffRun actions s).1.world = effects actions.reverse s.world ∧
      (handoffRun actions s).2 = none := by
  rw [handoffRun_returns actions s h]
  exact ⟨rfl, rfl, rfl⟩

theorem handoff_runs_in_reverse_witness :
    (∀ a ∈ [logLine "A", logLine "B", logLine "C"], Returns a) ∧
      ((handoffRun [logLine "A", logLine "B", logLine "C"] logStart).1.trace =
          logStart.trace ++ [logLine "A", logLine "B", logLine "C"].reverse ∧
        (handoffRun [logLine "A", logLine "B", logLine "C"] logStart).1.world =
          effects [logLine "A", logLine "B", logLine "C"].reverse logStart.world ∧
        (handoffRun [logLine "A", logLine "B", logLine "C"] logStart).2 = none) ∧
      (handoffRun [logLine "A", logLine "B", logLine "C"] logStart).1.world =
        ["C", "B", "A"] :=
  have hyp : ∀ a ∈ [logLine "A", logLine "B", logLine "C"], Returns a := by
    intro a ha
    simp only [List.mem_cons, List.mem_singleton, List.not_mem_nil, or_false] at ha
    rcases ha with rfl | rfl | rfl <;> exact logLine_returns _
  ⟨hyp, handoff_runs_in_reverse _ logStart hyp, by decide⟩

/-- C2, the guard runs on early exit: for every list of actions a1..aN (each returning
normally; in particular every non-empty list) added with `Add` to a cleaner fresh from
`New`, if `Ok` is never called by the caller, invoking the cleanup function returned by
`New` once calls every added action exactly once, in the order aN, ..., a1, returns
normally and leaves the cleaner without pending closures. -/
theorem guard_runs_in_reverse (actions : List (Closure W E)) (s : State W E)
    (h : ∀ a ∈ actions, Returns a) :
    (guardRun actions s).1.trace = s.trace ++ actions.reverse ∧
      (guardRun actions s).1.world = effects actions.reverse s.world ∧
      (guardRun actions s).2 = none ∧
      ((guardRun actions s).1.heap (New s).2.1).closures = [] := by
  have hr : ∀ a ∈ actions.reverse, Returns a := fun a ha => h a (List.mem_reverse.mp ha)
  rw [guardRun_eq, callEach_returns _ _ hr]
  refine ⟨rfl, rfl, rfl, ?_⟩
  simp [New]

theorem guard_runs_in_reverse_witness :
    (∀ a ∈ [printf "hello"], Returns a) ∧
      ((guardRun [printf "hello"] stdoutStart).1.trace =
          stdoutStart.trace ++ [printf "hello"].reverse ∧
        (guardRun [printf "hello"] stdoutStart).1.world =
          effects [printf "hello"].reverse stdoutStart.world ∧
        (guardRun [printf "hello"] stdoutStart).2 = none ∧
        ((guardRun [printf "hello"] stdoutStart).1.heap (New stdoutStart).2.1).closures = []) ∧
      (guardRun [printf "hello"] stdoutStart).1.world = "hello" :=
  have hyp : ∀ a ∈ [printf "hello"], Returns a := by
    intro a ha
    simp only [List.mem_singleton] at ha
    rw [ha]; exact printf_returns _
  ⟨hyp, guard_runs_in_reverse _ stdoutStart hyp, by decide⟩

/-! ## The two release paths exclude each other -/

theorem afterOk_pending (actions : List (Closure W E)) (s : State W E) :
    ((afterOk actions s).1.heap (New s).2.1).closures = [] := by
  simp [afterOk, Cleaner.Ok]

theorem afterOk_call (actions : List (Closure W E)) (s : State W E) :
    (afterOk actions s).2 (afterOk actions s).1 = handoffRun actions s := rfl

theorem afterOk_func (actions : List (Closure W E)) (s t : State W E) :
    (afterOk actions s).2 t = callEach actions.reverse t := by
  simp only [afterOk, Cleaner.Ok, New, addAll_eq]
  rw [released_eq_callEach]
  simp

/-- C3, the handoff suppresses the guard: for every list of actions added to a cleaner
fresh from `New`, once `Ok` has been called and no `Add` follows, invoking the cleanup
function of `New` calls no closure and changes nothing, both when the function returned
by `Ok` has not been invoked and when it has been invoked before; and when the actions
return normally, after invoking the returned function and then the cleanup function the
trace holds each action exactly once (aN, ..., a1), so one release path ran them. -/
theorem guard_after_ok_runs_nothing (actions : List (Closure W E)) (s : State W E) :
    (New s).2.2 (afterOk actions s).1 = ((afterOk actions s).1, none) ∧
      (New s).2.2 (handoffRun actions s).1 = ((handoffRun actions s).1, none) ∧
      ((∀ a ∈ actions, Returns a) →
        ((New s).2.2 (handoffRun actions s).1).1.trace = s.trace ++ actions.reverse) := by
  have h1 : (New s).2.2 (afterOk actions s).1 = ((afterOk actions s).1, none) :=
    cleanup_of_empty _ _ (afterOk_pending actions s)
  have hheap : (handoffRun actions s).1.heap = (afterOk actions s).1.heap := by
    rw [← afterOk_call, afterOk_func]
    exact (callEach_heap _ _).1
  have h2 : (New s).2.2 (handoffRun actions s).1 = ((handoffRun actions s).1, none) := by
    apply cleanup_of_empty
    rw [hheap]
    exact afterOk_pending actions s
  refine ⟨h1, h2, ?_⟩
  intro h
  rw [h2]
  rw [handoffRun_returns actions s h]

theorem guard_after_ok_runs_nothing_witness :
    (New logStart).2.2 (handoffRun [logLine "X"] logStart).1 =
        ((handoffRun [logLine "X"] logStart).1, none) ∧
      ((New logStart).2.2 (handoffRun [logLine "X"] logStart).1).1.trace =
        logStart.trace ++ [logLine "X"].reverse ∧
      ((New logStart).2.2 (handoffRun [logLine "X"] logStart).1).1.world = ["X"] :=
  ⟨(guard_after_ok_runs_nothing [logLine "X"] logStart).2.1,
    (guard_after_ok_runs_nothing [logLine "X"] logStart).2.2 (by
      intro a ha
      simp only [List.mem_singleton] at ha
      rw [ha]; exact logLine_returns _),
    by decide⟩

/-! ## Invoking the function returned by `Ok` more than once -/

/-- C4, refuted as stated: with one action that logs the line A, invoking the function
returned by `Ok` twice logs A twice and makes two calls, while invoking it once logs A
once: the second invocation runs the captured action again. -/
theorem ok_func_second_call_counterexample :
    ((afterOk [logLine "A"] logStart).2
        ((afterOk [logLine "A"] logStart).2 (afterOk [logLine "A"] logStart).1).1).1.world =
        ["A", "A"] ∧
      ((afterOk [logLine "A"] logStart).2 (afterOk [logLine "A"] logStart).1).1.world = ["A"] ∧
      ((afterOk [logLine "A"] logStart).2
        ((afterOk [logLine "A"] logStart).2 (afterOk [logLine "A"] logStart).1).1).1.world ≠
        ((afterOk [logLine "A"] logStart).2 (afterOk [logLine "A"] logStart).1).1.world ∧
      ((afterOk [logLine "A"] logStart).2
        ((afterOk [logLine "A"] logStart).2
          (afterOk [logLine "A"] logStart).1).1).1.trace.length = 2 := by
  decide

/-- C4, amended: the function returned by `Ok` keeps its captured closures, and every
invocation runs them again in reverse order.  For every cleaner state whose pending
closures return normally, the first invocation extends the trace by the reversed
pending sequence and the second invocation extends it by the same sequence once more;
both return normally.  A second invocation is without effect exactly in the case that
nothing was captured. -/
theorem ok_func_runs_again (d : Nat) (s : State W E)
    (h : ∀ a ∈ (s.heap d).closures, Returns a) :
    ((Cleaner.Ok d s).2 (Cleaner.Ok d s).1).1.trace =
        s.trace ++ (s.heap d).closures.reverse ∧
      ((Cleaner.Ok d s).2 ((Cleaner.Ok d s).2 (Cleaner.Ok d s).1).1).1.trace =
        s.trace ++ (s.heap d).closures.reverse ++ (s.heap d).closures.reverse ∧
      ((Cleaner.Ok d s).2 (Cleaner.Ok d s).1).2 = none ∧
      ((Cleaner.Ok d s).2 ((Cleaner.Ok d s).2 (Cleaner.Ok d s).1).1).2 = none ∧
      (((Cleaner.Ok d s).2 ((Cleaner.Ok d s).2 (Cleaner.Ok d s).1).1).1.trace =
          ((Cleaner.Ok d s).2 (Cleaner.Ok d s).1).1.trace ↔ (s.heap d).closures = []) := by
  simp only [ok_func_returns d s _ h]
  simp [Cleaner.Ok]

theorem ok_func_runs_again_witness :
    (∀ a ∈ ((addAll 0 [logLine "A", logLine "B"] logStart).heap 0).closures, Returns a) ∧
      ((Cleaner.Ok 0 (addAll 0 [logLine "A", logLine "B"] logStart)).2
        ((Cleaner.Ok 0 (addAll 0 [logLine "A", logLine "B"] logStart)).2
          (Cleaner.Ok 0 (addAll 0 [logLine "A", logLine "B"] logStart)).1).1).1.trace =
        (addAll 0 [logLine "A", logLine "B"] logStart).trace ++
          ((addAll 0 [logLine "A", logLine "B"] logStart).heap 0).closures.reverse ++
          ((addAll 0 [logLine "A", logLine "B"] logStart).heap 0).closures.reverse ∧
      ((Cleaner.Ok 0 (addAll 0 [logLine "A", logLine "B"] logStart)).2
        ((Cleaner.Ok 0 (addAll 0 [logLine "A", logLine "B"] logStart)).2
          (Cleaner.Ok 0 (addAll 0 [logLine "A", logLine "B"] logStart)).1).1).1.world =
        ["B", "A", "B", "A"] :=
  have hyp : ∀ a ∈ ((addAll 0 [logLine "A", logLine "B"] logStart).heap 0).closures,
      Returns a := by
    intro a ha
    have hc : ((addAll 0 [logLine "A", logLine "B"] logStart).heap 0).closures =
        [logLine "A", logLine "B"] := rfl
    rw [hc] at ha
    simp only [List.mem_cons, List.mem_singleton, List.not_mem_nil, or_false] at ha
    rcases ha with rfl | rfl <;> exact logLine_returns _
  ⟨hyp, (ok_func_runs_again 0 _ hyp).2.1, by decide⟩

/-! ## `Ok` and `Add` as state changes -/

/-- C5, `Ok` drains the register without running anything: for every cleaner state, the
call of `Ok` leaves the cleaner without pending closures, calls no closure (trace and
environment unchanged) and touches no other cleaner; the captured closures are called
when the returned function is invoked (in reverse order, when they return normally);
and the function returned by a second `Ok` called right afterwards does nothing. -/
theorem ok_drains_without_running (d : Nat) (s : State W E) :
    ((Cleaner.Ok d s).1.heap d).closures = [] ∧
      (Cleaner.Ok d s).1.trace = s.trace ∧
      (Cleaner.Ok d s).1.world = s.world ∧
      (Cleaner.Ok d s).1.next = s.next ∧
      (∀ c, c ≠ d → (Cleaner.Ok d s).1.heap c = s.heap c) ∧
      ((∀ a ∈ (s.heap d).closures, Returns a) →
        ((Cleaner.Ok d s).2 (Cleaner.Ok d s).1).1.trace =
          s.trace ++ (s.heap d).closures.reverse) ∧
      (∀ t, (Cleaner.Ok d (Cleaner.Ok d s).1).2 t = (t, none)) ∧
      (Cleaner.Ok d (Cleaner.Ok d s).1).1 = (Cleaner.Ok d s).1 := by
  refine ⟨by simp [Cleaner.Ok], rfl, rfl, rfl, ?_, ?_, ?_, ?_⟩
  · intro c hc
    simp [Cleaner.Ok, Function.update_noteq hc]
  · intro h
    rw [ok_func_returns d s _ h]
    rfl
  · intro t
    simp [Cleaner.Ok, released, okLoop]
  · simp [Cleaner.Ok]

theorem ok_drains_without_running_witness :
    ((Cleaner.Ok 0 (addAll 0 [logLine "A", logLine "B"] logStart)).1.heap 0).closures = [] ∧
      (Cleaner.Ok 0 (addAll 0 [logLine "A", logLine "B"] logStart)).1.world = [] ∧
      ((Cleaner.Ok 0 (addAll 0 [logLine "A", logLine "B"] logStart)).2
        (Cleaner.Ok 0 (addAll 0 [logLine "A", logLine "B"] logStart)).1).1.trace =
        (addAll 0 [logLine "A", logLine "B"] logStart).trace ++
          ((addAll 0 [logLine "A", logLine "B"] logStart).heap 0).closures.reverse ∧
      ((Cleaner.Ok 0 (addAll 0 [logLine "A", logLine "B"] logStart)).2
        (Cleaner.Ok 0 (addAll 0 [logLine "A", logLine "B"] logStart)).1).1.world =
        ["B", "A"] :=
  ⟨(ok_drains_without_running 0 (addAll 0 [logLine "A", logLine "B"] logStart)).1,
    by decide,
    (ok_drains_without_running 0 (addAll 0 [logLine "A", logLine "B"] logStart)).2.2.2.2.2.1
      (by
        intro a ha
        have hc : ((addAll 0 [logLine "A", logLine "B"] logStart).heap 0).closures =
            [logLine "A", logLine "B"] := rfl
        rw [hc] at ha
        simp only [List.mem_cons, List.mem_singleton, List.not_mem_nil, or_false] at ha
        rcases ha with rfl | rfl <;> exact logLine_returns _),
    by decide⟩

/-- C8, `Add` appends and does not execute: for every cleaner with pending sequence p
and every closure a, after `Add(a)` the pending sequence is exactly p followed by a
(the earlier entries and their order unchanged, the length one more), no closure is
called by the call (trace and environment unchanged), and no other cleaner changes. -/
theorem add_appends_without_running (d : Nat) (a : Closure W E) (s : State W E) :
    ((Cleaner.Add d a s).heap d).closures = (s.heap d).closures ++ [a] ∧
      ((Cleaner.Add d a s).heap d).closures.length = (s.heap d).closures.length + 1 ∧
      ((Cleaner.Add d a s).heap d).closures.take (s.heap d).closures.length =
        (s.heap d).closures ∧
      (Cleaner.Add d a s).trace = s.trace ∧
      (Cleaner.Add d a s).world = s.world ∧
      (Cleaner.Add d a s).next = s.next ∧
      (∀ c, c ≠ d → (Cleaner.Add d a s).heap c = s.heap c) := by
  refine ⟨by simp [Cleaner.Add], by simp [Cleaner.Add], by simp [Cleaner.Add],
    rfl, rfl, rfl, ?_⟩
  intro c hc
  simp [Cleaner.Add, Function.update_noteq hc]

theorem cleanup_heap (d : Nat) (s : State W E) :
    (cleanup d s).1.heap = Function.update s.heap d ⟨[]⟩ := by
  rw [cleanup_eq]
  exact (callEach_heap _ _).1

theorem cleanup_single (d : Nat) (a : Closure W E) (s : State W E)
    (h : (s.heap d).closures = [a]) :
    (cleanup d s).1.trace = s.trace ++ [a] := by
  rw [cleanup_eq, h]
  simp only [List.reverse_cons, List.reverse_nil, List.nil_append, callEach]
  cases hr : (a s.world).2 <;> rfl

/-- C6, refuted as stated: on a fresh cleaner, after `Add` of a closure logging A and a
call of `Ok`, a further `Add` of a closure logging B leaves the cleaner with one pending
closure, and the cleanup function of `New` invoked afterwards calls it: the log is B. -/
theorem add_after_ok_counterexample :
    ((Cleaner.Add 0 (logLine "B") (afterOk [logLine "A"] logStart).1).heap 0).closures ≠ [] ∧
      ((Cleaner.Add 0 (logLine "B")
        (afterOk [logLine "A"] logStart).1).heap 0).closures.length = 1 ∧
      ((New logStart).2.2
        (Cleaner.Add 0 (logLine "B") (afterOk [logLine "A"] logStart).1)).1.world = ["B"] ∧
      ((New logStart).2.2
        (Cleaner.Add 0 (logLine "B") (afterOk [logLine "A"] logStart).1)).1.trace.length = 1 ∧
      (New logStart).2.1 = 0 := by
  refine ⟨?_, by decide, by decide, by decide, rfl⟩
  intro h
  have hl := congrArg List.length h
  revert hl
  decide

/-- C6, amended: `Add` after `Ok` is kept, not lost.  For every cleaner state and every
closure a, after `Ok` and then `Add(a)` the pending sequence is exactly the one closure
a; the function `Ok` had returned is not affected by the `Add` (invoked after it, it makes
the same calls and leaves the same environment as invoked before it); and the cleanup
function, invoked after the `Add`, calls a and only a, and drains the cleaner again. -/
theorem add_after_ok_is_pending (d : Nat) (a : Closure W E) (s : State W E) :
    ((Cleaner.Add d a (Cleaner.Ok d s).1).heap d).closures = [a] ∧
      ((Cleaner.Ok d s).2 (Cleaner.Add d a (Cleaner.Ok d s).1)).1.trace =
        ((Cleaner.Ok d s).2 (Cleaner.Ok d s).1).1.trace ∧
      ((Cleaner.Ok d s).2 (Cleaner.Add d a (Cleaner.Ok d s).1)).1.world =
        ((Cleaner.Ok d s).2 (Cleaner.Ok d s).1).1.world ∧
      (cleanup d (Cleaner.Add d a (Cleaner.Ok d s).1)).1.trace = s.trace ++ [a] ∧
      ((cleanup d (Cleaner.Add d a (Cleaner.Ok d s).1)).1.heap d).closures = [] := by
  have hp : ((Cleaner.Add d a (Cleaner.Ok d s).1).heap d).closures = [a] := by
    simp [Cleaner.Add, Cleaner.Ok]
  have hf := callEach_frame (s.heap d).closures.reverse (Cleaner.Ok d s).1
    (Cleaner.Add d a (Cleaner.Ok d s).1).heap (Cleaner.Ok d s).1.next
  have hf1 : (Cleaner.Ok d s).2 (Cleaner.Add d a (Cleaner.Ok d s).1) =
      callEach (s.heap d).closures.reverse
        { (Cleaner.Ok d s).1 with heap := (Cleaner.Add d a (Cleaner.Ok d s).1).heap,
                                  next := (Cleaner.Ok d s).1.next } :=
    released_eq_callEach _ _
  have hf2 : (Cleaner.Ok d s).2 (Cleaner.Ok d s).1 =
      callEach (s.heap d).closures.reverse (Cleaner.Ok d s).1 :=
    released_eq_callEach _ _
  refine ⟨hp, ?_, ?_, ?_, ?_⟩
  · rw [hf1, hf2, hf]
  · rw [hf1, hf2, hf]
  · exact cleanup_single d a _ hp
  · rw [cleanup_heap]; simp

/-! ## A registered closure that panics -/

/-- C7, the code on the failing input: with the actions logging A, logging B and
panicking, logging C added in this order, the function returned by `Ok` (and likewise
the cleanup function) calls the third and the second action and ends in the panic of
the second; the first action is not called, so the trace is not the reversed list of
all three, although the comment of `Ok` promises a function that runs all of the
closures. -/
theorem panic_leaves_loop_on_failing_input :
    (handoffRun [logLine "A", logPanic "B", logLine "C"] logStart).1.world = ["C", "B"] ∧
      (handoffRun [logLine "A", logPanic "B", logLine "C"] logStart).1.trace.length = 2 ∧
      (handoffRun [logLine "A", logPanic "B", logLine "C"] logStart).2 =
        some (Fault.actionPanic "B") ∧
      (handoffRun [logLine "A", logPanic "B", logLine "C"] logStart).1.trace ≠
        logStart.trace ++ [logLine "A", logPanic "B", logLine "C"].reverse ∧
      (guardRun [logLine "A", logPanic "B", logLine "C"] logStart).1.world = ["C", "B"] ∧
      (guardRun [logLine "A", logPanic "B", logLine "C"] logStart).1.trace.length = 2 := by
  refine ⟨by decide, by decide, by decide, ?_, by decide, by decide⟩
  intro h
  have hl := congrArg List.length h
  revert hl
  decide

/-- What the loop of `Ok` does at a panic: for every list of actions in which the action
a panics and the actions added after it return normally, the function returned by `Ok`,
and likewise the cleanup function, calls the actions added after a in reverse order,
then a, and nothing more; the invocation ends in a panic. -/
theorem panic_stops_release (pre post : List (Closure W E)) (a : Closure W E)
    (s : State W E) (ha : Panics a) (hpost : ∀ b ∈ post, Returns b) :
    (handoffRun (pre ++ a :: post) s).1.trace = s.trace ++ (post.reverse ++ [a]) ∧
      (handoffRun (pre ++ a :: post) s).2 ≠ none ∧
      (guardRun (pre ++ a :: post) s).1.trace = s.trace ++ (post.reverse ++ [a]) ∧
      (guardRun (pre ++ a :: post) s).2 ≠ none := by
  have hr : ∀ b ∈ post.reverse, Returns b := fun b hb => hpost b (List.mem_reverse.mp hb)
  obtain ⟨e, he⟩ := Option.ne_none_iff_exists.mp (ha (effects post.reverse s.world))
  have hrev : (pre ++ a :: post).reverse = post.reverse ++ a :: pre.reverse := by simp
  have hstop := callEach_stops post.reverse a pre.reverse
    { s with heap := Function.update s.heap s.next ⟨[]⟩, next := s.next + 1 } e hr he.symm
  rw [handoffRun_eq, guardRun_eq, hrev, hstop]
  simp

theorem panic_stops_release_witness :
    Panics (logPanic "B") ∧ (∀ b ∈ [logLine "C"], Returns b) ∧
      ((handoffRun ([logLine "A"] ++ logPanic "B" :: [logLine "C"]) logStart).1.trace =
          logStart.trace ++ ([logLine "C"].reverse ++ [logPanic "B"]) ∧
        (handoffRun ([logLine "A"] ++ logPanic "B" :: [logLine "C"]) logStart).2 ≠ none ∧
        (guardRun ([logLine "A"] ++ logPanic "B" :: [logLine "C"]) logStart).1.trace =
          logStart.trace ++ ([logLine "C"].reverse ++ [logPanic "B"]) ∧
        (guardRun ([logLine "A"] ++ logPanic "B" :: [logLine "C"]) logStart).2 ≠ none) :=
  have hyp : ∀ b ∈ [logLine "C"], Returns b := by
    intro b hb
    simp only [List.mem_singleton] at hb
    rw [hb]; exact logLine_returns _
  ⟨logPanic_panics "B", hyp,
    panic_stops_release [logLine "A"] [logLine "C"] (logPanic "B") logStart
      (logPanic_panics "B") hyp⟩

/-! ## The cleanup function on a drained or empty cleaner -/

/-- C10, empty register: `New` returns a cleaner whose pending sequence is empty, and
invoking the cleanup function on it with nothing added calls no closure, changes
nothing and returns normally; the reverse loop never indexes out of range, whatever
the captured sequence, and with length 0 its body is not entered. -/
theorem guard_on_empty_register (s : State W E) :
    ((New s).1.heap (New s).2.1).closures = [] ∧
      (New s).2.2 (New s).1 = ((New s).1, none) ∧
      guardRun [] s = ((New s).1, none) ∧
      (guardRun [] s).1.trace = s.trace ∧
      (guardRun [] s).1.world = s.world ∧
      (∀ (closures : List (Closure W E)) (t : State W E),
        (released closures t).2 ≠ some Fault.indexOutOfRange) := by
  have hp : ((New s).1.heap (New s).2.1).closures = [] := by simp [New]
  have h1 : (New s).2.2 (New s).1 = ((New s).1, none) := cleanup_of_empty _ _ hp
  have h2 : guardRun [] s = ((New s).1, none) := h1
  refine ⟨hp, h1, h2, ?_, ?_, ?_⟩
  · rw [h2]; rfl
  · rw [h2]; rfl
  · intro closures t
    rw [released_eq_callEach]
    exact callEach_fault _ _

theorem cleanup_returns (d : Nat) (s : State W E)
    (h : ∀ a ∈ (s.heap d).closures, Returns a) :
    cleanup d s =
      ({ s with heap := Function.update s.heap d ⟨[]⟩,
                world := effects (s.heap d).closures.reverse s.world,
                trace := s.trace ++ (s.heap d).closures.reverse }, none) := by
  have hr : ∀ a ∈ (s.heap d).closures.reverse, Returns a :=
    fun a ha => h a (List.mem_reverse.mp ha)
  rw [cleanup_eq, callEach_returns _ _ hr]

/-! ## Panics reach the invoker -/

/-- C12, failure propagation: a panic of a registered closure is not caught by the
cleaner.  If, in the release sequence, the actions added after a return normally and a
panics with the value e, then the function returned by `Ok`, and likewise the cleanup
function, ends in that same panic with the value e; and if every action returns
normally, both release paths return normally. -/
theorem panic_reaches_invoker (pre post : List (Closure W E)) (a : Closure W E) (e : E)
    (s : State W E) (hpost : ∀ b ∈ post, Returns b)
    (ha : (a (effects post.reverse s.world)).2 = some e) :
    (handoffRun (pre ++ a :: post) s).2 = some (Fault.actionPanic e) ∧
      (guardRun (pre ++ a :: post) s).2 = some (Fault.actionPanic e) ∧
      (∀ actions : List (Closure W E), (∀ b ∈ actions, Returns b) →
        (handoffRun actions s).2 = none ∧ (guardRun actions s).2 = none) := by
  have hr : ∀ b ∈ post.reverse, Returns b := fun b hb => hpost b (List.mem_reverse.mp hb)
  have hrev : (pre ++ a :: post).reverse = post.reverse ++ a :: pre.reverse := by simp
  have hstop := callEach_stops post.reverse a pre.reverse
    { s with heap := Function.update s.heap s.next ⟨[]⟩, next := s.next + 1 } e hr ha
  refine ⟨?_, ?_, ?_⟩
  · rw [handoffRun_eq, hrev, hstop]
  · rw [guardRun_eq, hrev, hstop]
  · intro actions hall
    have hr2 : ∀ b ∈ actions.reverse, Returns b :=
      fun b hb => hall b (List.mem_reverse.mp hb)
    rw [handoffRun_eq, guardRun_eq, callEach_returns _ _ hr2]
    exact ⟨rfl, rfl⟩

theorem panic_reaches_invoker_witness :
    (∀ b ∈ [logLine "C"], Returns b) ∧
      (logPanic "B" (effects [logLine "C"].reverse logStart.world)).2 = some "B" ∧
      (handoffRun ([logLine "A"] ++ logPanic "B" :: [logLine "C"]) logStart).2 =
        some (Fault.actionPanic "B") ∧
      (guardRun ([logLine "A"] ++ logPanic "B" :: [logLine "C"]) logStart).2 =
        some (Fault.actionPanic "B") :=
  have hyp : ∀ b ∈ [logLine "C"], Returns b := by
    intro b hb
    simp only [List.mem_singleton] at hb
    rw [hb]; exact logLine_returns _
  ⟨hyp, rfl,
    (panic_reaches_invoker [logLine "A"] [logLine "C"] (logPanic "B") "B" logStart
      hyp rfl).1,
    (panic_reaches_invoker [logLine "A"] [logLine "C"] (logPanic "B") "B" logStart
      hyp rfl).2.1⟩

/-! ## Programs: every added closure is in one place -/

theorem exec_snoc (d : Nat) (script : List (Call W E)) (c : Call W E) (p : Prog W E) :
    exec d (script ++ [c]) p = step d (exec d script p) c := by
  simp [exec, List.foldl_append]

theorem invocations_append (l1 l2 : List (Call W E)) :
    invocations (l1 ++ l2) = invocations l1 ++ invocations l2 := by
  induction l1 with
  | nil => rfl
  | cons c cs ih => cases c <;> simp [invocations, ih]

theorem additions_append (l1 l2 : List (Call W E)) :
    additions (l1 ++ l2) = additions l1 ++ additions l2 := by
  induction l1 with
  | nil => rfl
  | cons c cs ih => cases c <;> simp [additions, ih]

theorem held_append (hs : List (Handle W E)) (h : Handle W E) :
    held (hs ++ [h]) = held hs ++ (if h.invoked then [] else h.captured) := by
  induction hs with
  | nil => simp [held]
  | cons g gs ih => simp [held, ih]

theorem held_set :
    ∀ (hs : List (Handle W E)) (i : Nat) (h : Handle W E),
      hs[i]? = some h → h.invoked = false →
      (held hs : Multiset (Closure W E)) =
        (h.captured : Multiset (Closure W E)) +
          (held (hs.set i { h with invoked := true }) : Multiset (Closure W E)) := by
  intro hs
  induction hs with
  | nil => intro i h hi _; simp at hi
  | cons g gs ih =>
    intro i h hi hinv
    cases i with
    | zero =>
      simp only [List.getElem?_cons_zero, Option.some.injEq] at hi
      subst hi
      simp [held, hinv]
    | succ j =>
      simp only [List.getElem?_cons_succ] at hi
      have h1 := ih j h hi hinv
      simp only [List.set_cons_succ, held, ← Multiset.coe_add] at h1 ⊢
      rw [h1]
      abel
theorem getElem?_snoc_cases {α : Type} (l : List α) (x h : α) (i : Nat)
    (hi : (l ++ [x])[i]? = some h) : l[i]? = some h ∨ (i = l.length ∧ h = x) := by
  rcases Nat.lt_trichotomy i l.length with hlt | heq | hgt
  · left
    rw [List.getElem?_append_left hlt] at hi
    exact hi
  · right
    rw [heq, List.getElem?_concat_length] at hi
    simp only [Option.some.injEq] at hi
    exact ⟨heq, hi.symm⟩
  · have hlen : (l ++ [x]).length ≤ i := by
      simp only [List.length_append, List.length_singleton]
      omega
    rw [List.getElem?_eq_none hlen] at hi
    exact Option.noConfusion hi

theorem step_conserved (d : Nat) (base : List (Closure W E)) (done : List Nat)
    (p : Prog W E) (c : Call W E) (hc : Conserved d base done p)
    (hadd : ∀ a, c = Call.add a → Returns a) (hinv : ∀ i, c = Call.invoke i → i ∉ done) :
    Conserved d base (done ++ invocations [c]) (step d p c) := by
  obtain ⟨hpend, hhand, ex, htr, hsum⟩ := hc
  cases c with
  | add a =>
    have ha : Returns a := hadd a rfl
    refine ⟨?_, ?_, ex, htr, ?_⟩
    · intro b hb
      simp only [step, Cleaner.Add, Function.update_same, List.mem_append,
        List.mem_singleton] at hb
      rcases hb with hb | hb
      · exact hpend b hb
      · rw [hb]; exact ha
    · intro i h hi
      obtain ⟨h1, h2, h3⟩ := hhand i h hi
      exact ⟨h1, h2, fun hx => List.mem_append_left _ (h3 hx)⟩
    · simp only [step, Cleaner.Add, Function.update_same, ← Multiset.coe_add] at hsum ⊢
      rw [← hsum]
      abel
  | ok =>
    refine ⟨?_, ?_, ex, htr, ?_⟩
    · intro b hb
      simp [step, Cleaner.Ok] at hb
    · intro i h hi
      simp only [step] at hi
      rcases getElem?_snoc_cases _ _ _ _ hi with hi1 | ⟨_, hi2⟩
      · obtain ⟨h1, h2, h3⟩ := hhand i h hi1
        exact ⟨h1, h2, fun hx => List.mem_append_left _ (h3 hx)⟩
      · subst hi2
        exact ⟨rfl, hpend, fun hx => Bool.noConfusion hx⟩
    · simp only [step, Cleaner.Ok, Function.update_same, held_append,
        ← Multiset.coe_add] at hsum ⊢
      rw [← hsum]
      simp
      exact List.Perm.append_left _ List.perm_append_comm
  | guard =>
    have hcl := cleanup_returns d p.st hpend
    refine ⟨?_, ?_, ex ++ (p.st.heap d).closures.reverse, ?_, ?_⟩
    · intro b hb
      simp only [step] at hb
      rw [cleanup_heap] at hb
      simp at hb
    · intro i h hi
      obtain ⟨h1, h2, h3⟩ := hhand i h hi
      exact ⟨h1, h2, fun hx => List.mem_append_left _ (h3 hx)⟩
    · simp only [step]
      rw [hcl]
      simp [htr]
    · simp only [step]
      rw [cleanup_heap]
      simp only [Function.update_same, ← Multiset.coe_add] at hsum ⊢
      rw [← hsum, ← Multiset.coe_reverse (p.st.heap d).closures]
      simp
  | invoke i =>
    have hnot : i ∉ done := hinv i rfl
    cases hg : p.handles[i]? with
    | none =>
      have hs : step d p (Call.invoke i) = p := by simp only [step, hg]
      rw [hs]
      refine ⟨hpend, ?_, ex, htr, hsum⟩
      intro j h hj
      obtain ⟨h1, h2, h3⟩ := hhand j h hj
      exact ⟨h1, h2, fun hx => List.mem_append_left _ (h3 hx)⟩
    | some h =>
      obtain ⟨hrun, hcap, hdone⟩ := hhand i h hg
      have hfalse : h.invoked = false := by
        cases hb : h.invoked with
        | false => rfl
        | true => exact absurd (hdone hb) hnot
      have hcapr : ∀ a ∈ h.captured.reverse, Returns a :=
        fun a ha => hcap a (List.mem_reverse.mp ha)
      have hcall : h.run p.st =
          ({ p.st with world := effects h.captured.reverse p.st.world,
                       trace := p.st.trace ++ h.captured.reverse }, none) := by
        rw [hrun, released_eq_callEach, callEach_returns _ _ hcapr]
      have hs : step d p (Call.invoke i) =
          { p with st := (h.run p.st).1,
                   handles := p.handles.set i { h with invoked := true } } := by
        simp only [step, hg]
      rw [hs, hcall]
      have hlt : i < p.handles.length := (List.getElem?_eq_some.mp hg).1
      refine ⟨hpend, ?_, ex ++ h.captured.reverse, ?_, ?_⟩
      · intro j g hj
        simp only [List.getElem?_set] at hj
        by_cases hij : i = j
        · rw [if_pos hij, if_pos hlt] at hj
          simp only [Option.some.injEq] at hj
          subst hj
          subst hij
          exact ⟨hrun, hcap, fun _ => by simp [invocations]⟩
        · rw [if_neg hij] at hj
          obtain ⟨h1, h2, h3⟩ := hhand j g hj
          exact ⟨h1, h2, fun hx => List.mem_append_left _ (h3 hx)⟩
      · simp [htr]
      · have hh := held_set p.handles i h hg hfalse
        simp only [← Multiset.coe_add] at hsum ⊢
        rw [← hsum, hh, ← Multiset.coe_reverse h.captured]
        abel
theorem fresh_conserved (s : State W E) :
    Conserved (New s).2.1 s.trace [] (fresh s) := by
  refine ⟨?_, ?_, [], ?_, ?_⟩
  · intro a ha
    simp [fresh, New] at ha
  · intro i h hi
    simp [fresh] at hi
  · simp [fresh, New]
  · simp [fresh, New, held]

theorem exec_conserved (d : Nat) (base : List (Closure W E)) (p : Prog W E)
    (hp : Conserved d base [] p) :
    ∀ script : List (Call W E), (∀ a ∈ additions script, Returns a) →
      (invocations script).Nodup →
      Conserved d base (invocations script) (exec d script p) ∧
        (exec d script p).added = p.added ++ additions script := by
  intro script
  induction script using List.reverseRecOn with
  | nil =>
    intro _ _
    exact ⟨hp, by simp [exec, additions]⟩
  | append_singleton l c ih =>
    intro hret honce
    rw [additions_append] at hret
    rw [invocations_append] at honce
    have hl := ih (fun a ha => hret a (List.mem_append_left _ ha)) honce.of_append_left
    rw [exec_snoc, invocations_append, additions_append]
    refine ⟨step_conserved d base _ _ c hl.1 ?_ ?_, ?_⟩
    · intro a hc
      subst hc
      exact hret a (List.mem_append_right _ (by simp [additions]))
    · intro i hc
      subst hc
      have hdis := (List.nodup_append.mp honce).2.2
      intro hmem
      exact hdis hmem (by simp [invocations])
    · cases c <;> simp [step, additions, hl.2]
      rename_i i
      cases hg : (exec d l p).handles[i]? <;> simp [hl.2]

/-- C14, conservation: for every script of `Add`, `Ok` and cleanup calls on one fresh
cleaner, interleaved with invocations of functions `Ok` returned before, in which no
returned function is invoked twice and the added closures return normally, at every
point n of the script the closures called so far, the pending ones and the ones
captured by returned functions not yet invoked are together, as a multiset, exactly
the closures added so far: each added closure is in one of the three places, and in
one only.  Hence the closures called are, with multiplicity, among the closures added:
none is called more often than it was added, and none is dropped. -/
theorem actions_are_conserved (script : List (Call W E)) (s : State W E) (n : Nat)
    (hret : ∀ a ∈ additions script, Returns a) (honce : (invocations script).Nodup) :
    ∃ ex : List (Closure W E),
      (exec (New s).2.1 (script.take n) (fresh s)).st.trace = s.trace ++ ex ∧
      ((ex : Multiset (Closure W E)) +
          (((exec (New s).2.1 (script.take n) (fresh s)).st.heap (New s).2.1).closures :
            Multiset (Closure W E)) +
          (held (exec (New s).2.1 (script.take n) (fresh s)).handles :
            Multiset (Closure W E)) =
        (additions (script.take n) : Multiset (Closure W E))) ∧
      (ex : Multiset (Closure W E)) ≤ (additions script : Multiset (Closure W E)) := by
  have hsplit : script = script.take n ++ script.drop n := (List.take_append_drop n script).symm
  have hadds : additions script = additions (script.take n) ++ additions (script.drop n) := by
    rw [← additions_append, ← hsplit]
  have hinvs : invocations script =
      invocations (script.take n) ++ invocations (script.drop n) := by
    rw [← invocations_append, ← hsplit]
  have hret2 : ∀ a ∈ additions (script.take n), Returns a := by
    intro a ha
    apply hret
    rw [hadds]
    exact List.mem_append_left _ ha
  have honce2 : (invocations (script.take n)).Nodup := by
    rw [hinvs] at honce
    exact honce.of_append_left
  obtain ⟨⟨_, _, ex, htr, hsum⟩, hadded⟩ :=
    exec_conserved (New s).2.1 s.trace (fresh s) (fresh_conserved s) (script.take n)
      hret2 honce2
  have hadded2 : (exec (New s).2.1 (script.take n) (fresh s)).added =
      additions (script.take n) := by
    rw [hadded]; simp [fresh]
  rw [hadded2] at hsum
  refine ⟨ex, htr, hsum, ?_⟩
  rw [hadds, ← Multiset.coe_add, ← hsum]
  simp only [add_assoc]
  exact Multiset.le_add_right _ _
theorem actions_are_conserved_witness :
    (∀ a ∈ additions sampleScript, Returns a) ∧ (invocations sampleScript).Nodup ∧
      (∃ ex : List (Closure (List String) String),
        (exec (New logStart).2.1 (sampleScript.take 4) (fresh logStart)).st.trace =
          logStart.trace ++ ex ∧
        ((ex : Multiset (Closure (List String) String)) +
            (((exec (New logStart).2.1 (sampleScript.take 4)
              (fresh logStart)).st.heap (New logStart).2.1).closures :
              Multiset (Closure (List String) String)) +
            (held (exec (New logStart).2.1 (sampleScript.take 4) (fresh logStart)).handles :
              Multiset (Closure (List String) String)) =
          (additions (sampleScript.take 4) : Multiset (Closure (List String) String))) ∧
        (ex : Multiset (Closure (List String) String)) ≤
          (additions sampleScript : Multiset (Closure (List String) String))) ∧
      (exec (New logStart).2.1 (sampleScript.take 4) (fresh logStart)).st.world = [] ∧
      (exec (New logStart).2.1 sampleScript (fresh logStart)).st.world = ["B", "A", "C"] :=
  have hret : ∀ a ∈ additions sampleScript, Returns a := by
    intro a ha
    have hc : additions sampleScript = [logLine "A", logLine "B", logLine "C"] := rfl
    rw [hc] at ha
    simp only [List.mem_cons, List.mem_singleton, List.not_mem_nil, or_false] at ha
    rcases ha with rfl | rfl | rfl <;> exact logLine_returns _
  have honce : (invocations sampleScript).Nodup := by decide
  ⟨hret, honce, actions_are_conserved sampleScript logStart 4 hret honce,
    by decide, by decide⟩

/-! ## Backing arrays: the slice captured by `Ok` is not written to afterwards -/

theorem storeLoop_frame (c : Slice) :
    ∀ (k : Nat) (m : Store W E),
      (storeLoop c k m).1.cells = m.cells ∧ (storeLoop c k m).1.field = m.field ∧
        (storeLoop c k m).1.nextArr = m.nextArr := by
  intro k
  induction k with
  | zero => intro m; exact ⟨rfl, rfl, rfl⟩
  | succ k ih =>
    intro m
    by_cases hk : k < c.len
    · cases hg : m.cells c.arr k with
      | none => simp [storeLoop, hk, hg]
      | some f =>
        cases hr : (f m.world).2 with
        | none =>
          simp only [storeLoop, hk, hg, hr, if_true]
          exact ih { m with world := (f m.world).1, trace := m.trace ++ [f] }
        | some e => simp [storeLoop, hk, hg, hr]
    · simp [storeLoop, hk]

theorem storeLoop_view (c : Slice) (v : List (Closure W E)) (hret : ∀ a ∈ v, Returns a) :
    ∀ (k : Nat) (m : Store W E), IsView m c v → k ≤ c.len →
      storeLoop c k m =
        ({ m with world := effects (v.take k).reverse m.world,
                  trace := m.trace ++ (v.take k).reverse }, none) := by
  intro k
  induction k with
  | zero => intro m _ _; simp [storeLoop, effects]
  | succ k ih =>
    intro m hv hk
    have hlt : k < c.len := hk
    have hltv : k < v.length := by rw [hv.1]; exact hlt
    have hcell : m.cells c.arr k = some v[k] := by
      rw [hv.2 k hlt]; exact List.getElem?_eq_getElem hltv
    have hr : (v[k] m.world).2 = none := hret _ (List.getElem_mem _) m.world
    have htake : (v.take (k + 1)).reverse = v[k] :: (v.take k).reverse := by
      rw [List.take_succ, List.getElem?_eq_getElem hltv]; simp
    simp only [storeLoop, hlt, hcell, hr, if_true]
    rw [ih { m with world := (v[k] m.world).1, trace := m.trace ++ [v[k]] }
      ⟨hv.1, hv.2⟩ (Nat.le_of_lt hlt), htake]
    simp [effects]

theorem goAppend_view (extra : Nat → Nat) (sl : Slice) (x : Closure W E) (m : Store W E)
    (v : List (Closure W E)) (hv : IsView m sl v) :
    IsView (goAppend extra sl x m).1 (goAppend extra sl x m).2 (v ++ [x]) := by
  obtain ⟨hlen, hcells⟩ := hv
  by_cases hroom : sl.len < sl.cap
  · simp only [goAppend, hroom, if_true]
    refine ⟨by simp [hlen], ?_⟩
    intro i hi
    simp only [Function.update_same]
    by_cases hil : i = sl.len
    · subst hil
      rw [Function.update_same, ← hlen, List.getElem?_concat_length]
    · have hlt : i < sl.len := by
        have : i < sl.len + 1 := hi
        omega
      rw [Function.update_noteq hil, hcells i hlt,
        List.getElem?_append_left (by rw [hlen]; exact hlt)]
  · simp only [goAppend, hroom, if_false]
    refine ⟨by simp [hlen], ?_⟩
    intro i hi
    simp only [Function.update_same]
    by_cases hil : i = sl.len
    · subst hil
      simp only [Nat.lt_irrefl, if_false, if_true]
      rw [← hlen, List.getElem?_concat_length]
    · have hlt : i < sl.len := by
        have : i < sl.len + 1 := hi
        omega
      simp only [hlt, if_true]
      rw [hcells i hlt, List.getElem?_append_left (by rw [hlen]; exact hlt)]

theorem storeAdd_view (extra : Nat → Nat) (d : Nat) (x : Closure W E) (m : Store W E)
    (v : List (Closure W E)) (hv : IsView m (m.field d) v) :
    IsView (storeAdd extra d x m) ((storeAdd extra d x m).field d) (v ++ [x]) := by
  have h := goAppend_view extra (m.field d) x m v hv
  simp only [storeAdd, Function.update_same]
  exact ⟨h.1, h.2⟩

theorem storeCleanup_frame (d : Nat) (m : Store W E) :
    (storeCleanup d m).1.cells = m.cells ∧
      (storeCleanup d m).1.field = Function.update m.field d Slice.nil ∧
      (storeCleanup d m).1.nextArr = m.nextArr := by
  have h := storeLoop_frame (m.field d) (m.field d).len
    { m with field := Function.update m.field d Slice.nil }
  exact ⟨h.1, h.2.1, h.2.2⟩

theorem storeStep_keeps (extra : Nat → Nat) (d : Nat) (c : Slice) (t : Store W E)
    (call : LaterCall W E) (hc : c.arr < t.nextArr)
    (hne : (t.field d).cap = 0 ∨ (t.field d).arr ≠ c.arr) :
    c.arr < (storeStep extra d t call).nextArr ∧
      (((storeStep extra d t call).field d).cap = 0 ∨
        ((storeStep extra d t call).field d).arr ≠ c.arr) ∧
      (storeStep extra d t call).cells c.arr = t.cells c.arr := by
  cases call with
  | add a =>
    by_cases hroom : (t.field d).len < (t.field d).cap
    · have harr : (t.field d).arr ≠ c.arr := by
        rcases hne with h0 | h1
        · omega
        · exact h1
      simp only [storeStep, storeAdd, goAppend, hroom, if_true, Function.update_same]
      exact ⟨hc, Or.inr harr, Function.update_noteq (Ne.symm harr) _ _⟩
    · have hfresh : t.nextArr ≠ c.arr := Nat.ne_of_gt hc
      simp only [storeStep, storeAdd, goAppend, hroom, if_false, Function.update_same]
      exact ⟨Nat.lt_succ_of_lt hc, Or.inr hfresh, Function.update_noteq (Ne.symm hfresh) _ _⟩
  | ok =>
    simp only [storeStep, storeOk, Function.update_same]
    exact ⟨hc, Or.inl rfl, trivial⟩
  | guard =>
    have h := storeCleanup_frame d t
    simp only [storeStep]
    rw [h.1, h.2.1, h.2.2]
    simp only [Function.update_same]
    exact ⟨hc, Or.inl rfl, trivial⟩

theorem storeExec_keeps (extra : Nat → Nat) (d : Nat) (c : Slice) :
    ∀ (script : List (LaterCall W E)) (t : Store W E), c.arr < t.nextArr →
      ((t.field d).cap = 0 ∨ (t.field d).arr ≠ c.arr) →
      (storeExec extra d script t).cells c.arr = t.cells c.arr := by
  intro script
  induction script with
  | nil => intro t _ _; rfl
  | cons call rest ih =>
    intro t hc hne
    have h := storeStep_keeps extra d c t call hc hne
    have h2 := ih (storeStep extra d t call) h.1 h.2.1
    simp only [storeExec, List.foldl_cons] at h2 ⊢
    rw [h2, h.2.2]

theorem storeOk_func_snapshot (extra : Nat → Nat) (d : Nat) (m : Store W E)
    (later : List (LaterCall W E)) (v : List (Closure W E))
    (hv : IsView m (m.field d) v)
    (halloc : (m.field d).len = 0 ∨ (m.field d).arr < m.nextArr)
    (hret : ∀ a ∈ v, Returns a) :
    IsView (storeExec extra d later (storeOk d m).1) (m.field d) v ∧
      ((storeOk d m).2 (storeExec extra d later (storeOk d m).1)).1.trace =
        (storeExec extra d later (storeOk d m).1).trace ++ v.reverse ∧
      ((storeOk d m).2 (storeExec extra d later (storeOk d m).1)).1.world =
        effects v.reverse (storeExec extra d later (storeOk d m).1).world ∧
      ((storeOk d m).2 (storeExec extra d later (storeOk d m).1)).2 = none := by
  have hview : IsView (storeExec extra d later (storeOk d m).1) (m.field d) v := by
    refine ⟨hv.1, ?_⟩
    intro i hi
    rcases halloc with h0 | hlt
    · omega
    · have hk := storeExec_keeps extra d (m.field d) later (storeOk d m).1 hlt
        (Or.inl (by simp [storeOk, Slice.nil]))
      rw [hk]
      exact hv.2 i hi
  have hrun := storeLoop_view (m.field d) v hret (m.field d).len
    (storeExec extra d later (storeOk d m).1) hview (Nat.le_refl _)
  have htake : v.take (m.field d).len = v := by
    rw [← hv.1]; exact List.take_length v
  rw [htake] at hrun
  have hfun : (storeOk d m).2 = storeLoop (m.field d) (m.field d).len := rfl
  rw [hfun, hrun]
  exact ⟨hview, rfl, rfl, rfl⟩

theorem captured_slice_example :
    (storeAB.field 0) = ⟨0, 2, 4⟩ ∧
      ((storeOk 0 storeAB).2 (storeExec (fun _ => 3) 0
        [LaterCall.add (logLine "C"), LaterCall.add (logLine "D"), LaterCall.guard,
          LaterCall.add (logLine "E")] (storeOk 0 storeAB).1)).1.world =
        ["D", "C", "B", "A"] ∧
      ((storeExec (fun _ => 3) 0
        [LaterCall.add (logLine "C"), LaterCall.add (logLine "D"), LaterCall.guard,
          LaterCall.add (logLine "E")] (storeOk 0 storeAB).1).field 0) = ⟨2, 1, 4⟩ := by
  decide

/-! ## The function returned by `Ok` runs what was pending at the call of `Ok` -/

/-- C13, snapshot semantics of the handoff: the function returned by `Ok` runs the
closures that were pending at the call of `Ok` (returning normally).  On lists: for
every script of later `Add`, `Ok` and cleanup calls (and invocations of returned
functions) on the same cleaner, invoking that function afterwards calls exactly those
closures in reverse order and none of the closures added later, leaves the environment
those calls produce and does not touch the pending sequence the cleaner has by then;
the same holds in every state whatever.  On backing arrays: if the cleaner's slice shows
the list v at the call of `Ok` (its array allocated unless it is empty), then for every
growth policy of `append` and every script of later calls the captured slice still
shows v (`Ok` left the field nil, so the next `append` allocates and no later `append`
writes into the captured array), and the function invoked then calls exactly v in
reverse order: the captured sequence is not aliased with the new pending sequence. -/
theorem ok_func_runs_snapshot (d : Nat) (p : Prog W E) (later : List (Call W E))
    (h : ∀ a ∈ (p.st.heap d).closures, Returns a)
    (extra : Nat → Nat) (m : Store W E) (calls : List (LaterCall W E))
    (v : List (Closure W E)) (hv : IsView m (m.field d) v)
    (halloc : (m.field d).len = 0 ∨ (m.field d).arr < m.nextArr)
    (hret : ∀ a ∈ v, Returns a) :
    (((Cleaner.Ok d p.st).2 (exec d later (step d p Call.ok)).st).1.trace =
        (exec d later (step d p Call.ok)).st.trace ++ (p.st.heap d).closures.reverse ∧
      ((Cleaner.Ok d p.st).2 (exec d later (step d p Call.ok)).st).1.world =
        effects (p.st.heap d).closures.reverse (exec d later (step d p Call.ok)).st.world ∧
      ((Cleaner.Ok d p.st).2 (exec d later (step d p Call.ok)).st).2 = none ∧
      ((Cleaner.Ok d p.st).2 (exec d later (step d p Call.ok)).st).1.heap =
        (exec d later (step d p Call.ok)).st.heap ∧
      (step d p Call.ok).handles.getLast? =
        some ⟨(Cleaner.Ok d p.st).2, (p.st.heap d).closures, false⟩ ∧
      (∀ t : State W E,
        ((Cleaner.Ok d p.st).2 t).1.trace = t.trace ++ (p.st.heap d).closures.reverse ∧
          ((Cleaner.Ok d p.st).2 t).1.heap = t.heap)) ∧
    (IsView (storeExec extra d calls (storeOk d m).1) (m.field d) v ∧
      ((storeOk d m).2 (storeExec extra d calls (storeOk d m).1)).1.trace =
        (storeExec extra d calls (storeOk d m).1).trace ++ v.reverse ∧
      ((storeOk d m).2 (storeExec extra d calls (storeOk d m).1)).1.world =
        effects v.reverse (storeExec extra d calls (storeOk d m).1).world ∧
      ((storeOk d m).2 (storeExec extra d calls (storeOk d m).1)).2 = none) := by
  have hall : ∀ t : State W E,
      ((Cleaner.Ok d p.st).2 t).1.trace = t.trace ++ (p.st.heap d).closures.reverse ∧
        ((Cleaner.Ok d p.st).2 t).1.heap = t.heap := by
    intro t
    rw [ok_func_returns d p.st t h]
    exact ⟨rfl, rfl⟩
  refine ⟨⟨(hall _).1, ?_, ?_, (hall _).2, ?_, hall⟩,
    storeOk_func_snapshot extra d m calls v hv halloc hret⟩
  · rw [ok_func_returns d p.st _ h]
  · rw [ok_func_returns d p.st _ h]
  · simp [step]

theorem storeAB_view : IsView storeAB (storeAB.field 0) [logLine "A", logLine "B"] := by
  refine ⟨rfl, ?_⟩
  intro i hi
  have h2 : i < 2 := hi
  match i, h2 with
  | 0, _ => rfl
  | 1, _ => rfl

theorem ok_func_runs_snapshot_witness :
    (∀ a ∈ (((exec 0 [Call.add (logLine "A"), Call.add (logLine "B")]
        (fresh logStart)).st.heap 0).closures), Returns a) ∧
      IsView storeAB (storeAB.field 0) [logLine "A", logLine "B"] ∧
      ((storeAB.field 0).len = 0 ∨ (storeAB.field 0).arr < storeAB.nextArr) ∧
      (∀ a ∈ [logLine "A", logLine "B"], Returns a) ∧
      ((Cleaner.Ok 0 (exec 0 [Call.add (logLine "A"), Call.add (logLine "B")]
          (fresh logStart)).st).2
        (exec 0 [Call.add (logLine "C"), Call.guard, Call.add (logLine "D"), Call.ok,
            Call.add (logLine "E")]
          (step 0 (exec 0 [Call.add (logLine "A"), Call.add (logLine "B")]
            (fresh logStart)) Call.ok)).st).1.trace =
        (exec 0 [Call.add (logLine "C"), Call.guard, Call.add (logLine "D"), Call.ok,
            Call.add (logLine "E")]
          (step 0 (exec 0 [Call.add (logLine "A"), Call.add (logLine "B")]
            (fresh logStart)) Call.ok)).st.trace ++
          ((exec 0 [Call.add (logLine "A"), Call.add (logLine "B")]
            (fresh logStart)).st.heap 0).closures.reverse ∧
      IsView (storeExec (fun _ => 3) 0
          [LaterCall.add (logLine "C"), LaterCall.add (logLine "D"), LaterCall.guard,
            LaterCall.add (logLine "E")] (storeOk 0 storeAB).1)
        (storeAB.field 0) [logLine "A", logLine "B"] ∧
      ((Cleaner.Ok 0 (exec 0 [Call.add (logLine "A"), Call.add (logLine "B")]
          (fresh logStart)).st).2
        (exec 0 [Call.add (logLine "C"), Call.guard, Call.add (logLine "D"), Call.ok,
            Call.add (logLine "E")]
          (step 0 (exec 0 [Call.add (logLine "A"), Call.add (logLine "B")]
            (fresh logStart)) Call.ok)).st).1.world = ["C", "B", "A"] ∧
      ((storeOk 0 storeAB).2 (storeExec (fun _ => 3) 0
        [LaterCall.add (logLine "C"), LaterCall.add (logLine "D"), LaterCall.guard,
          LaterCall.add (logLine "E")] (storeOk 0 storeAB).1)).1.world =
        ["D", "C", "B", "A"] :=
  have hyp : ∀ a ∈ (((exec 0 [Call.add (logLine "A"), Call.add (logLine "B")]
      (fresh logStart)).st.heap 0).closures), Returns a := by
    intro a ha
    have hc : ((exec 0 [Call.add (logLine "A"), Call.add (logLine "B")]
        (fresh logStart)).st.heap 0).closures = [logLine "A", logLine "B"] := rfl
    rw [hc] at ha
    simp only [List.mem_cons, List.mem_singleton, List.not_mem_nil, or_false] at ha
    rcases ha with rfl | rfl <;> exact logLine_returns _
  have hret : ∀ a ∈ [logLine "A", logLine "B"], Returns a := by
    intro a ha
    simp only [List.mem_cons, List.mem_singleton, List.not_mem_nil, or_false] at ha
    rcases ha with rfl | rfl <;> exact logLine_returns _
  have halloc : (storeAB.field 0).len = 0 ∨ (storeAB.field 0).arr < storeAB.nextArr :=
    Or.inr (by decide)
  ⟨hyp, storeAB_view, halloc, hret,
    (ok_func_runs_snapshot 0 (exec 0 [Call.add (logLine "A"), Call.add (logLine "B")]
      (fresh logStart)) [Call.add (logLine "C"), Call.guard, Call.add (logLine "D"),
        Call.ok, Call.add (logLine "E")] hyp (fun _ => 3) storeAB
      [LaterCall.add (logLine "C"), LaterCall.add (logLine "D"), LaterCall.guard,
        LaterCall.add (logLine "E")] [logLine "A", logLine "B"] storeAB_view halloc
      hret).1.1,
    (ok_func_runs_snapshot 0 (exec 0 [Call.add (logLine "A"), Call.add (logLine "B")]
      (fresh logStart)) [Call.add (logLine "C"), Call.guard, Call.add (logLine "D"),
        Call.ok, Call.add (logLine "E")] hyp (fun _ => 3) storeAB
      [LaterCall.add (logLine "C"), LaterCall.add (logLine "D"), LaterCall.guard,
        LaterCall.add (logLine "E")] [logLine "A", logLine "B"] storeAB_view halloc
      hret).2.1,
    by decide, by decide⟩

/-! ## Closures that call into the package: the release loop over closures that do not -/

theorem callAct_prim (n : Nat) (f : Closure W E) (s : ActState W E) :
    callAct (n + 1) (Act.prim f) s =
      some ({ s with world := (f s.world).1 }, (f s.world).2.map Fault.actionPanic) := rfl

theorem isPrim_exists (a : Act W E) (h : a.IsPrim) : ∃ f, a = Act.prim f := by
  cases a with
  | prim f => exact ⟨f, rfl⟩
  | add d a => exact False.elim h
  | drop d => exact False.elim h
  | guard d => exact False.elim h
  | seq a b => exact False.elim h

theorem returnsPrim_exists (a : Act W E) (h : a.ReturnsPrim) :
    ∃ f, a = Act.prim f ∧ Returns f := by
  cases a with
  | prim f => exact ⟨f, rfl, h⟩
  | add d a => exact False.elim h
  | drop d => exact False.elim h
  | guard d => exact False.elim h
  | seq a b => exact False.elim h

theorem take_succ_reverse {α : Type} (l : List α) (k : Nat) (x : α) (h : l[k]? = some x) :
    (l.take (k + 1)).reverse = x :: (l.take k).reverse := by
  rw [List.take_succ, h]; simp

theorem actLoop_prim (n : Nat) (cl : List (Act W E)) :
    ∀ (k : Nat) (s : ActState W E),
      (∀ i a, i < k → cl[i]? = some a → a.IsPrim) →
      ∃ r, actLoop (callAct (n + 1)) cl k s = some r ∧ r.1.closures = s.closures ∧
        r.1.next = s.next ∧ ∃ j, r.1.trace = s.trace ++ ((cl.take k).reverse.take j) := by
  intro k
  induction k with
  | zero =>
    intro s _
    exact ⟨(s, none), rfl, rfl, rfl, 0, by simp⟩
  | succ k ih =>
    intro s h
    cases hg : cl[k]? with
    | none =>
      refine ⟨(s, some Fault.indexOutOfRange), ?_, rfl, rfl, 0, by simp⟩
      simp only [actLoop, hg]
    | some a =>
      obtain ⟨f, hf⟩ := isPrim_exists a (h k a (Nat.lt_succ_self k) hg)
      subst hf
      have hrev := take_succ_reverse cl k _ hg
      cases hr : (f s.world).2 with
      | some e =>
        refine ⟨({ s with world := (f s.world).1, trace := s.trace ++ [Act.prim f] },
          some (Fault.actionPanic e)), ?_, rfl, rfl, 1, ?_⟩
        · simp only [actLoop, hg, callAct_prim, hr, Option.map_some']
        · rw [hrev]; simp
      | none =>
        obtain ⟨r, hrun, hc, hn, j, hj⟩ :=
          ih { s with world := (f s.world).1, trace := s.trace ++ [Act.prim f] }
            (fun i a hi => h i a (Nat.lt_succ_of_lt hi))
        refine ⟨r, ?_, hc, hn, j + 1, ?_⟩
        · simp only [actLoop, hg, callAct_prim, hr, Option.map_none']
          exact hrun
        · rw [hj, hrev]; simp

theorem actLoop_returnsPrim (n : Nat) (cl : List (Act W E))
    (h : ∀ a ∈ cl, a.ReturnsPrim) :
    ∀ (k : Nat) (s : ActState W E), k ≤ cl.length →
      ∃ r, actLoop (callAct (n + 1)) cl k s = some (r, none) ∧ r.closures = s.closures ∧
        r.next = s.next ∧ r.trace = s.trace ++ (cl.take k).reverse := by
  intro k
  induction k with
  | zero =>
    intro s _
    exact ⟨s, rfl, rfl, rfl, by simp⟩
  | succ k ih =>
    intro s hk
    have hlt : k < cl.length := hk
    have hg : cl[k]? = some cl[k] := List.getElem?_eq_getElem hlt
    obtain ⟨f, hf, hret⟩ := returnsPrim_exists cl[k] (h _ (List.getElem_mem _))
    rw [hf] at hg
    have hrev := take_succ_reverse cl k _ hg
    have hr : (f s.world).2 = none := hret s.world
    obtain ⟨r, hrun, hc, hn, ht⟩ :=
      ih { s with world := (f s.world).1, trace := s.trace ++ [Act.prim f] }
        (Nat.le_of_lt hlt)
    refine ⟨r, ?_, hc, hn, ?_⟩
    · simp only [actLoop, hg, callAct_prim, hr, Option.map_none']
      exact hrun
    · rw [ht, hrev]; simp

theorem actCleanup_of_empty (m d : Nat) (t : ActState W E) (h : t.closures d = []) :
    actCleanup m d t = some (t, none) := by
  have hu : Function.update t.closures d [] = t.closures := by
    rw [← h]; exact Function.update_eq_self d t.closures
  simp only [actCleanup, actReleased, actOk, h, hu, List.length_nil, actLoop]

theorem actCleanup_prim (n d : Nat) (s : ActState W E)
    (h : ∀ a ∈ s.closures d, a.IsPrim) :
    ∃ r, actCleanup (n + 1) d s = some r ∧
      r.1.closures = Function.update s.closures d [] ∧ r.1.next = s.next ∧
      ∃ j, r.1.trace = s.trace ++ ((s.closures d).reverse.take j) := by
  obtain ⟨r, hrun, hc, hn, j, hj⟩ := actLoop_prim n (s.closures d) (s.closures d).length
    (actOk d s).1 (fun i a _ hi => h a (List.getElem?_mem hi))
  rw [List.take_length] at hj
  exact ⟨r, hrun, hc, hn, j, hj⟩

theorem actCleanup_returnsPrim (n d : Nat) (s : ActState W E)
    (h : ∀ a ∈ s.closures d, a.ReturnsPrim) :
    ∃ r, actCleanup (n + 1) d s = some (r, none) ∧
      r.closures = Function.update s.closures d [] ∧ r.next = s.next ∧
      r.trace = s.trace ++ (s.closures d).reverse := by
  obtain ⟨r, hrun, hc, hn, ht⟩ := actLoop_returnsPrim n (s.closures d) h
    (s.closures d).length (actOk d s).1 (Nat.le_refl _)
  rw [List.take_length] at ht
  exact ⟨r, hrun, hc, hn, ht⟩
/-! ## The cleanup function invoked twice -/

/-- C9, refuted as stated: after `d.Add(A); d.Add(func() { B; d.Add(late) })` on a fresh
cleaner, the first invocation of the cleanup function logs B, A and leaves one closure
pending, the one added during the run; the second invocation calls it and logs late.
Invoking the guard twice is not the same as invoking it once. -/
theorem guard_twice_counterexample :
    (actCleanup 3 0 lateAdder).map (fun r => (r.1.world, (r.1.closures 0).length, r.2)) =
        some (["B", "A"], 1, none) ∧
      ((actCleanup 3 0 lateAdder).bind (fun r => actCleanup 3 0 r.1)).map
          (fun r => (r.1.world, (r.1.closures 0).length, r.2)) =
        some (["B", "A", "late"], 0, none) ∧
      ((actCleanup 3 0 lateAdder).bind (fun r => actCleanup 3 0 r.1)).map
          (fun r => r.1.world) ≠
        (actCleanup 3 0 lateAdder).map (fun r => r.1.world) ∧
      (actNew actStart).2.1 = 0 := by
  decide

/-- C9, amended: the guard is idempotent when the closures it runs do not call into the
package.  For every state in which the pending closures of the cleaner are such
closures (they may panic), the first invocation of the cleanup function comes back,
leaves the pending sequence empty, and a second invocation calls no closure, changes
nothing and returns normally.  More generally, an invocation of the cleanup function
that finds the pending sequence empty calls no closure and changes nothing. -/
theorem guard_twice_is_once_without_reentry (n d : Nat) (s : ActState W E)
    (h : ∀ a ∈ s.closures d, a.IsPrim) :
    (∃ r, actCleanup (n + 1) d s = some r ∧ r.1.closures d = [] ∧
      (∃ j, r.1.trace = s.trace ++ (s.closures d).reverse.take j) ∧
      ∀ m, actCleanup m d r.1 = some (r.1, none)) ∧
    (∀ (t : ActState W E) (m : Nat), t.closures d = [] →
      actCleanup m d t = some (t, none)) := by
  obtain ⟨r, hrun, hc, _, hj⟩ := actCleanup_prim n d s h
  have hp : r.1.closures d = [] := by rw [hc]; simp
  exact ⟨⟨r, hrun, hp, hj, fun m => actCleanup_of_empty m d r.1 hp⟩,
    fun t m ht => actCleanup_of_empty m d t ht⟩

theorem guard_twice_is_once_without_reentry_witness :
    (∀ a ∈ twoPlain.closures 0, a.IsPrim) ∧
      (∃ r, actCleanup (2 + 1) 0 twoPlain = some r ∧ r.1.closures 0 = [] ∧
        (∃ j, r.1.trace = twoPlain.trace ++ (twoPlain.closures 0).reverse.take j) ∧
        ∀ m, actCleanup m 0 r.1 = some (r.1, none)) ∧
      ((actCleanup 3 0 twoPlain).bind (fun r => actCleanup 3 0 r.1)).map
          (fun r => (r.1.world, r.2)) = some (["A"], none) :=
  have hyp : ∀ a ∈ twoPlain.closures 0, a.IsPrim := by
    intro a ha
    have hc : twoPlain.closures 0 = [Act.prim (logLine "A")] := rfl
    rw [hc] at ha
    simp only [List.mem_singleton] at ha
    rw [ha]; exact trivial
  ⟨hyp, (guard_twice_is_once_without_reentry 2 0 twoPlain hyp).1, by decide⟩

/-! ## The drain before the run -/

/-- C15, refuted as stated: after `d.Add(A); d.Add(func() { d.Add(A); B })` on a fresh
cleaner, where B panics, the cleanup function ends in the panic of B without having
called A, and the pending sequence is not empty afterwards: it holds the A added during
the run.  A subsequent invocation calls that A, an original action that had not been
run. -/
theorem guard_leaves_pending_counterexample :
    (actCleanup 3 0 readder).map (fun r => (r.1.world, (r.1.closures 0).length, r.2)) =
        some (["B"], 1, some (Fault.actionPanic "B")) ∧
      ((actCleanup 3 0 readder).bind (fun r => actCleanup 3 0 r.1)).map
          (fun r => (r.1.world, (r.1.closures 0).length, r.2)) =
        some (["B", "A"], 0, none) ∧
      (actCleanup 3 0 readder).map (fun r => (r.1.closures 0).length) ≠ some 0 := by
  decide

/-- C15, amended: the guard empties the pending sequence before it runs the first action.
If the pending closures `pre` do not call into the package, then whatever the outcome
of the run (also when one of them panics partway) the cleanup function comes back, has
called an initial part of `pre` reversed, leaves the pending sequence empty, and a
subsequent invocation calls no closure: the original actions not yet run are never run.
If the closure added last is `func() { d.Add(x) }` and the others are `pre`, it runs
first and finds the sequence emptied already: afterwards the pending sequence is
exactly `x`, neither lost nor appended to the original actions. -/
theorem guard_drains_before_running (n d : Nat) (s : ActState W E)
    (pre : List (Act W E)) (x : Act W E) (hpre : ∀ a ∈ pre, a.IsPrim) :
    (s.closures d = pre →
      ∃ r, actCleanup (n + 1) d s = some r ∧ r.1.closures d = [] ∧
        (∃ j, r.1.trace = s.trace ++ pre.reverse.take j) ∧
        ∀ m, actCleanup m d r.1 = some (r.1, none)) ∧
    (s.closures d = pre ++ [Act.add d x] →
      ∃ r, actCleanup (n + 1) d s = some r ∧ r.1.closures d = [x] ∧
        ∃ j, r.1.trace = s.trace ++ Act.add d x :: pre.reverse.take j) := by
  constructor
  · intro hs
    obtain ⟨r, hrun, hc, _, hj⟩ := actCleanup_prim n d s (by rw [hs]; exact hpre)
    have hp : r.1.closures d = [] := by rw [hc]; simp
    rw [hs] at hj
    exact ⟨r, hrun, hp, hj, fun m => actCleanup_of_empty m d r.1 hp⟩
  · intro hs
    have hlast : (pre ++ [Act.add d x])[pre.length]? = some (Act.add d x) :=
      List.getElem?_concat_length pre _
    have hprims : ∀ i a, i < pre.length → (pre ++ [Act.add d x])[i]? = some a →
        a.IsPrim := by
      intro i a hi ha
      rw [List.getElem?_append_left hi] at ha
      exact hpre a (List.getElem?_mem ha)
    obtain ⟨r, hrun, hc, _, j, hj⟩ := actLoop_prim n (pre ++ [Act.add d x]) pre.length
      (actAdd d x { (actOk d s).1 with trace := s.trace ++ [Act.add d x] }) hprims
    refine ⟨r, ?_, ?_, j, ?_⟩
    · simp only [actCleanup, actReleased, actOk, hs, List.length_append,
        List.length_singleton, actLoop, hlast]
      simp only [actOk, hs] at hrun
      exact hrun
    · rw [hc]
      simp [actAdd, actOk]
    · rw [hj]
      simp [actAdd, actOk]
theorem guard_drains_before_running_witness :
    (∀ a ∈ [Act.prim (logLine "A"), Act.prim (logPanic "B"), Act.prim (logLine "C")],
        a.IsPrim) ∧
      (∃ r, actCleanup (2 + 1) 0 panicMiddle = some r ∧ r.1.closures 0 = [] ∧
        (∃ j, r.1.trace = panicMiddle.trace ++
          [Act.prim (logLine "A"), Act.prim (logPanic "B"),
            Act.prim (logLine "C")].reverse.take j) ∧
        ∀ m, actCleanup m 0 r.1 = some (r.1, none)) ∧
      (∃ r, actCleanup (2 + 1) 0 adderLast = some r ∧
        r.1.closures 0 = [Act.prim (logLine "late")] ∧
        ∃ j, r.1.trace = adderLast.trace ++
          Act.add 0 (Act.prim (logLine "late")) :: [Act.prim (logLine "A")].reverse.take j) ∧
      (actCleanup 3 0 panicMiddle).map (fun r => (r.1.world, (r.1.closures 0).length, r.2)) =
        some (["C", "B"], 0, some (Fault.actionPanic "B")) ∧
      ((actCleanup 3 0 panicMiddle).bind (fun r => actCleanup 3 0 r.1)).map
          (fun r => (r.1.world, r.2)) = some (["C", "B"], none) :=
  have hyp : ∀ a ∈ [Act.prim (logLine "A"), Act.prim (logPanic "B"),
      Act.prim (logLine "C")], a.IsPrim := by
    intro a ha
    simp only [List.mem_cons, List.mem_singleton, List.not_mem_nil, or_false] at ha
    rcases ha with rfl | rfl | rfl <;> exact trivial
  have hyp1 : ∀ a ∈ [Act.prim (logLine "A")], a.IsPrim := by
    intro a ha
    simp only [List.mem_singleton] at ha
    rw [ha]; exact trivial
  ⟨hyp,
    (guard_drains_before_running 2 0 panicMiddle _ (Act.prim (logLine "A")) hyp).1 rfl,
    (guard_drains_before_running 2 0 adderLast [Act.prim (logLine "A")]
      (Act.prim (logLine "late")) hyp1).2 rfl,
    by decide, by decide⟩

/-! ## Two cleaners -/

/-- C11, refuted as stated: with two cleaners from two calls of `New`, after
`d0.Add(A); d0.Add(cleanup1); d1.Add(B)` the cleanup function of the first cleaner calls
`cleanup1`, which empties the pending sequence of the second cleaner and calls its
action B: the second cleaner had one pending closure before and has none afterwards,
and the log is B, A. -/
theorem cleaners_interfere_counterexample :
    (crossed.closures 1).length = 1 ∧
      (actCleanup 3 0 crossed).map
          (fun r => (r.1.world, (r.1.closures 1).length, r.1.trace.length, r.2)) =
        some (["B", "A"], 0, 3, none) ∧
      (actCleanup 3 0 crossed).map (fun r => (r.1.closures 1).length) ≠
        some (crossed.closures 1).length ∧
      (actNew actStart).2.1 = 0 ∧ (actNew (actNew actStart).1).2.1 = 1 := by
  decide

/-- C11, amended: two cleaners at different addresses (as two calls of `New` give them)
are independent as far as the closures run do not call into the package.  `Add` and
`Ok` on the first always leave the pending sequence of the second unchanged and call
nothing.  If the pending closures of the first do not call into the package, its cleanup
function comes back, leaves the pending sequence of the second unchanged and calls an
initial part of the first cleaner's own reversed pending sequence only.  After each of
the three, a release of the second whose pending closures do not call into the package
and return normally calls exactly its own pending closures in reverse order.  A later
`New` returns an address different from an existing cleaner's and leaves it unchanged. -/
theorem cleaners_are_independent_without_reentry (n d1 d2 : Nat) (a : Act W E)
    (s : ActState W E) (hne : d1 ≠ d2) :
    (actAdd d1 a s).closures d2 = s.closures d2 ∧
      (actAdd d1 a s).trace = s.trace ∧
      (actOk d1 s).1.closures d2 = s.closures d2 ∧
      (actOk d1 s).1.trace = s.trace ∧
      ((∀ b ∈ s.closures d1, b.IsPrim) →
        ∃ r, actCleanup (n + 1) d1 s = some r ∧ r.1.closures d2 = s.closures d2 ∧
          (∃ k, r.1.trace = s.trace ++ (s.closures d1).reverse.take k) ∧
          ((∀ b ∈ s.closures d2, b.ReturnsPrim) →
            ∃ t, actCleanup (n + 1) d2 r.1 = some (t, none) ∧
              t.trace = r.1.trace ++ (s.closures d2).reverse)) ∧
      ((∀ b ∈ s.closures d2, b.ReturnsPrim) →
        (∃ t, actCleanup (n + 1) d2 (actAdd d1 a s) = some (t, none) ∧
          t.trace = s.trace ++ (s.closures d2).reverse) ∧
        (∃ t, actCleanup (n + 1) d2 (actOk d1 s).1 = some (t, none) ∧
          t.trace = s.trace ++ (s.closures d2).reverse)) ∧
      (∀ t : ActState W E, d1 < t.next →
        (actNew t).2.1 ≠ d1 ∧ (actNew t).1.closures d1 = t.closures d1) := by
  have hadd : (actAdd d1 a s).closures d2 = s.closures d2 := by
    simp [actAdd, Function.update_noteq (Ne.symm hne)]
  have hok : (actOk d1 s).1.closures d2 = s.closures d2 := by
    simp [actOk, Function.update_noteq (Ne.symm hne)]
  refine ⟨hadd, rfl, hok, rfl, ?_, ?_, ?_⟩
  · intro h1
    obtain ⟨r, hrun, hc, _, hk⟩ := actCleanup_prim n d1 s h1
    have hr2 : r.1.closures d2 = s.closures d2 := by
      rw [hc]; exact Function.update_noteq (Ne.symm hne) _ _
    refine ⟨r, hrun, hr2, hk, ?_⟩
    intro h2
    obtain ⟨t, ht, _, _, htr⟩ := actCleanup_returnsPrim n d2 r.1 (by rw [hr2]; exact h2)
    rw [hr2] at htr
    exact ⟨t, ht, htr⟩
  · intro h2
    constructor
    · obtain ⟨t, ht, _, _, htr⟩ :=
        actCleanup_returnsPrim n d2 (actAdd d1 a s) (by rw [hadd]; exact h2)
      rw [hadd] at htr
      exact ⟨t, ht, htr⟩
    · obtain ⟨t, ht, _, _, htr⟩ :=
        actCleanup_returnsPrim n d2 (actOk d1 s).1 (by rw [hok]; exact h2)
      rw [hok] at htr
      exact ⟨t, ht, htr⟩
  · intro t ht
    have hlt : t.next ≠ d1 := Nat.ne_of_gt ht
    refine ⟨hlt, ?_⟩
    simp [actNew, Function.update_noteq (Ne.symm hlt)]

theorem cleaners_are_independent_without_reentry_witness :
    (actNew actStart).2.1 ≠ (actNew (actNew actStart).1).2.1 ∧
      (∀ b ∈ twoPlain.closures (actNew actStart).2.1, b.IsPrim) ∧
      (∀ b ∈ twoPlain.closures (actNew (actNew actStart).1).2.1, b.ReturnsPrim) ∧
      (∃ r, actCleanup (2 + 1) (actNew actStart).2.1 twoPlain = some r ∧
        r.1.closures (actNew (actNew actStart).1).2.1 =
          twoPlain.closures (actNew (actNew actStart).1).2.1 ∧
        (∃ k, r.1.trace = twoPlain.trace ++
          (twoPlain.closures (actNew actStart).2.1).reverse.take k) ∧
        ((∀ b ∈ twoPlain.closures (actNew (actNew actStart).1).2.1, b.ReturnsPrim) →
          ∃ t, actCleanup (2 + 1) (actNew (actNew actStart).1).2.1 r.1 = some (t, none) ∧
            t.trace = r.1.trace ++
              (twoPlain.closures (actNew (actNew actStart).1).2.1).reverse)) ∧
      (actCleanup 3 0 twoPlain).map (fun r => (r.1.world, (r.1.closures 1).length)) =
        some (["A"], 1) ∧
      ((actCleanup 3 0 twoPlain).bind (fun r => actCleanup 3 1 r.1)).map
          (fun r => r.1.world) = some ["A", "B"] :=
  have hne : (actNew actStart).2.1 ≠ (actNew (actNew actStart).1).2.1 := by decide
  have h1 : ∀ b ∈ twoPlain.closures (actNew actStart).2.1, b.IsPrim := by
    intro b hb
    have hc : twoPlain.closures (actNew actStart).2.1 = [Act.prim (logLine "A")] := rfl
    rw [hc] at hb
    simp only [List.mem_singleton] at hb
    rw [hb]; exact trivial
  have h2 : ∀ b ∈ twoPlain.closures (actNew (actNew actStart).1).2.1, b.ReturnsPrim := by
    intro b hb
    have hc : twoPlain.closures (actNew (actNew actStart).1).2.1 =
        [Act.prim (logLine "B")] := rfl
    rw [hc] at hb
    simp only [List.mem_singleton] at hb
    rw [hb]; exact logLine_returns "B"
  ⟨hne, h1, h2,
    (cleaners_are_independent_without_reentry 2 _ _ (Act.prim (logLine "C")) twoPlain
      hne).2.2.2.2.1 h1,
    by decide, by decide⟩

end GoCleaner
